import Mathlib

/-!
# NeonTicTacToe: the game engine of `script.js`

A shallow embedding of the `TicTacToe` class of `src/script.js`: the board,
`checkWinner`, `makeMove`, `makeAIMove`, `findBestMove`, `minimax` and
`resetGame`, followed by the properties proved about them.

Conventions of the embedding.

* A board cell holds `null`, `'X'` or `'O'`: `Option Mark`.
* `this.board` is a JavaScript array of length 9 that is only ever read and
  written at the indices 0..8: a list of nine cells, indexed by `Fin 9`.
* The methods mutate `this`; here every method takes the state of the object
  and returns the state it leaves behind.
* `minimax` recurses; the embedding recurses on a fuel argument and returns
  `none` when the fuel runs out. `minimax_eq` shows that fuel beyond the number
  of empty cells always suffices, so the ten units `findBestMove` gives do.
* `-Infinity`, `Infinity` and the integer scores are the values of `JSNum`.
-/

namespace NeonTicTacToe

/-! ## Data model -/

/-- The two marks, the strings `'X'` and `'O'` of the source. -/
inductive Mark where
  | X
  | O
  deriving DecidableEq, Repr

/-- A board cell: `null` is `none`. -/
abbrev Cell := Option Mark

/-- The array `this.board`: nine cells. -/
structure Board where
  cells : List Cell
  size_eq : cells.length = 9
  deriving DecidableEq

/-- The read `board[i]`. -/
def Board.get (b : Board) (i : Fin 9) : Cell := b.cells.getD i.val none

instance : CoeFun Board (fun _ => Fin 9 → Cell) := ⟨Board.get⟩

/-- The assignment `board[i] = v`. -/
def Board.set (b : Board) (i : Fin 9) (v : Cell) : Board :=
  { cells := b.cells.set i.val v
    size_eq := by rw [List.length_set]; exact b.size_eq }

/-- The board `Array(9).fill(null)`. -/
def emptyBoard : Board :=
  { cells := List.replicate 9 none
    size_eq := rfl }

/-- The indices visited by `for (let i = 0; i < 9; i++)`, in order. -/
def cellIndices : List (Fin 9) := [0, 1, 2, 3, 4, 5, 6, 7, 8]

/-- The test `this.board.every(cell => cell !== null)`. -/
def boardFull (b : Board) : Bool :=
  cellIndices.all (fun i => (b i).isSome)

/-- The `winner` field of the object returned by `checkWinner`:
`'X'`, `'O'` or `'draw'`. -/
inductive Winner where
  | X
  | O
  | draw
  deriving DecidableEq, Repr

/-- The winner value that is the given mark (`winner: this.board[a]`). -/
def Winner.ofMark : Mark → Winner
  | Mark.X => Winner.X
  | Mark.O => Winner.O

/-- The object returned by `checkWinner`; `pattern: null` is `none`. -/
structure WinResult where
  winner : Winner
  pattern : Option Nat
  deriving DecidableEq, Repr

/-- The table `winPatterns` of `checkWinner`. -/
def winPatterns : List (Fin 9 × Fin 9 × Fin 9) :=
  [(0, 1, 2), (3, 4, 5), (6, 7, 8),
   (0, 3, 6), (1, 4, 7), (2, 5, 8),
   (0, 4, 8), (2, 4, 6)]

/-- The loop of `checkWinner` from position `i` on, over the patterns still to
be scanned. The test is `board[a] && board[a] === board[b] && board[a] ===
board[c]`: `board[a]` is truthy exactly when it holds a mark, and the first
pattern that passes ends the loop with `{ winner: board[a], pattern: i }`. -/
def scanPatterns (board : Board) : Nat → List (Fin 9 × Fin 9 × Fin 9) → Option WinResult
  | _, [] => none
  | i, (a, b, c) :: rest =>
    match board a with
    | some m =>
      if board a = board b ∧ board a = board c then
        some { winner := Winner.ofMark m, pattern := some i }
      else scanPatterns board (i + 1) rest
    | none => scanPatterns board (i + 1) rest

/-- The method `checkWinner`, as a function of `this.board`. -/
def checkWinner (b : Board) : Option WinResult :=
  match scanPatterns b 0 winPatterns with
  | some r => some r
  | none =>
    if boardFull b then some { winner := Winner.draw, pattern := none }
    else none

/-! ## Numbers of the search -/

/-- The JavaScript numbers the search handles: `-Infinity`, the integers and
`Infinity`. -/
inductive JSNum where
  | negInf
  | fin (n : Int)
  | posInf
  deriving DecidableEq, Repr

/-- The comparison `a > b`. -/
def JSNum.gt : JSNum → JSNum → Bool
  | JSNum.negInf, _ => false
  | JSNum.fin _, JSNum.negInf => true
  | JSNum.fin a, JSNum.fin b => decide (b < a)
  | JSNum.fin _, JSNum.posInf => false
  | JSNum.posInf, JSNum.posInf => false
  | JSNum.posInf, _ => true

/-- The function `Math.max(a, b)`. -/
def JSNum.max (a b : JSNum) : JSNum := if JSNum.gt b a then b else a

/-- The function `Math.min(a, b)`. -/
def JSNum.min (a b : JSNum) : JSNum := if JSNum.gt a b then b else a

/-- The table `scores` of `minimax`: `{ X: -1, O: 1, draw: 0 }`. -/
def scores : Winner → JSNum
  | Winner.X => JSNum.fin (-1)
  | Winner.O => JSNum.fin 1
  | Winner.draw => JSNum.fin 0

/-! ## The state of the object -/

/-- The classes of one `.cell` element that the script adds and removes. -/
structure CellClasses where
  x : Bool
  o : Bool
  winner : Bool
  deriving DecidableEq, Repr

/-- The text shown by `updateStatus`: the default turn message of the given
player, the message of a win of the given player, or the draw message. -/
inductive Status where
  | turn (p : Mark)
  | wins (p : Mark)
  | draw
  deriving DecidableEq, Repr

/-- The state of the `TicTacToe` object and of the page elements it drives.
The nine `.cell` elements are taken in document order with `data-index` 0..8
(the page itself is not part of the sources); `pendingAI` counts the
`setTimeout` callbacks to `makeAIMove` that are scheduled and not yet run. -/
structure Game where
  board : Board
  currentPlayer : Mark
  gameOver : Bool
  vsAI : Bool
  cells : Fin 9 → CellClasses
  status : Status
  pendingAI : Nat

/-- The other player: `currentPlayer === 'X' ? 'O' : 'X'`. -/
def Mark.other : Mark → Mark
  | Mark.X => Mark.O
  | Mark.O => Mark.X

/-- The call `cell.classList.add(player.toLowerCase())`. -/
def CellClasses.addMark (c : CellClasses) : Mark → CellClasses
  | Mark.X => { c with x := true }
  | Mark.O => { c with o := true }

/-- The state after `cells[i].classList.add('winner')`. -/
def addWinner (cells : Fin 9 → CellClasses) (i : Fin 9) : Fin 9 → CellClasses :=
  fun j => if j = i then { cells j with winner := true } else cells j

/-- The state set up by the constructor, before any mode button is pressed. -/
def initial : Game :=
  { board := emptyBoard
    currentPlayer := Mark.X
    gameOver := false
    vsAI := false
    cells := fun _ => { x := false, o := false, winner := false }
    status := Status.turn Mark.X
    pendingAI := 0 }

/-- The method `resetGame`. Scheduled callbacks are not cancelled. -/
def resetGame (s : Game) : Game :=
  { s with
    board := emptyBoard
    currentPlayer := Mark.X
    gameOver := false
    cells := fun _ => { x := false, o := false, winner := false }
    status := Status.turn Mark.X }

/-- The method `setGameMode`. -/
def setGameMode (s : Game) (ai : Bool) : Game :=
  resetGame { s with vsAI := ai }

/-! ## The search -/

/-- One of the two `for` loops of `minimax`: for every cell that is `null`
when its turn comes, write `mark`, call `call` (the recursive call), write
`null` back and fold the score into `bestScore` with `pick` (`Math.max` or
`Math.min`). `none` is a recursive call that ran out of fuel. -/
def searchLoop (call : Game → Option (JSNum × Game)) (mark : Mark)
    (pick : JSNum → JSNum → JSNum) (init : JSNum) (s : Game) : Option (JSNum × Game) :=
  cellIndices.foldl
    (fun acc i =>
      match acc with
      | none => none
      | some (bestScore, s) =>
        if s.board i = none then
          match call { s with board := s.board.set i (some mark) } with
          | none => none
          | some (score, s2) =>
            some (pick score bestScore, { s2 with board := s2.board.set i none })
        else some (bestScore, s))
    (some (init, s))

/-- The method `minimax`. Its parameter `board` is `this.board` itself at both
call sites, so the state `s` stands for both. The result is the returned
score and the state left behind. -/
def minimax : Nat → Game → Nat → Bool → Option (JSNum × Game)
  | 0, _, _, _ => none
  | fuel + 1, s, depth, isMaximizing =>
    match checkWinner s.board with
    | some result => some (scores result.winner, s)
    | none =>
      if isMaximizing then
        searchLoop (fun t => minimax fuel t (depth + 1) false) Mark.O JSNum.max JSNum.negInf s
      else
        searchLoop (fun t => minimax fuel t (depth + 1) true) Mark.X JSNum.min JSNum.posInf s

/-- Fuel given to the top-level calls of `minimax`: one more than the nine
cells a board has. -/
def minimaxFuel : Nat := 10

/-- The method `findBestMove`: the returned `bestMove` (`-1` when no cell was
tried) and the state left behind. -/
def findBestMove (s : Game) : Option (Int × Game) :=
  (cellIndices.foldl
    (fun acc i =>
      match acc with
      | none => none
      | some (bestScore, bestMove, s) =>
        if s.board i = none then
          match minimax minimaxFuel { s with board := s.board.set i (some Mark.O) } 0 false with
          | none => none
          | some (score, s2) =>
            if JSNum.gt score bestScore then
              some (score, (i.val : Int), { s2 with board := s2.board.set i none })
            else
              some (bestScore, bestMove, { s2 with board := s2.board.set i none })
        else some (bestScore, bestMove, s))
    (some (JSNum.negInf, (-1 : Int), s))).map (fun r => (r.2.1, r.2.2))

/-! ## Moves -/

/-- The method `highlightWinningCells`: `none` is the `TypeError` raised when
`winPatterns[pattern]` is `undefined` and cannot be destructured, which
happens before any class is added. -/
def highlightWinningCells (s : Game) (winResult : WinResult) : Option Game :=
  match winResult.pattern with
  | none => none
  | some p =>
    match winPatterns.get? p with
    | none => none
    | some (a, b, c) =>
      some { s with cells := addWinner (addWinner (addWinner s.cells a) b) c }

/-- The state before the branch on `winResult` in `makeMove`: the mark is
written to the board and its class added to the cell. -/
def placeMark (s : Game) (i : Fin 9) : Game :=
  { s with
    board := s.board.set i (some s.currentPlayer)
    cells := fun j => if j = i then (s.cells j).addMark s.currentPlayer else s.cells j }

/-- The method `makeMove` on the cell element `cells[i]`: the state the call
leaves behind, whether it returns or ends in the `TypeError` of
`highlightWinningCells` (an exception undoes no assignment). -/
def makeMove (s : Game) (i : Fin 9) : Game :=
  if s.gameOver || (s.cells i).x || (s.cells i).o then s
  else
    let s1 := placeMark s i
    match checkWinner s1.board with
    | some winResult =>
      let s2 := { s1 with gameOver := true, status := Status.wins s1.currentPlayer }
      match highlightWinningCells s2 winResult with
      | some s3 => s3
      | none => s2
    | none =>
      if boardFull s1.board then
        { s1 with gameOver := true, status := Status.draw }
      else
        let s2 := { s1 with currentPlayer := s1.currentPlayer.other,
                            status := Status.turn s1.currentPlayer.other }
        if s2.vsAI && decide (s2.currentPlayer = Mark.O) then
          { s2 with pendingAI := s2.pendingAI + 1 }
        else s2

/-- Whether the call `makeMove` on `cells[i]` ends in the `TypeError` of
`highlightWinningCells` instead of returning. -/
def makeMoveThrows (s : Game) (i : Fin 9) : Bool :=
  if s.gameOver || (s.cells i).x || (s.cells i).o then false
  else
    let s1 := placeMark s i
    match checkWinner s1.board with
    | some winResult =>
      (highlightWinningCells { s1 with gameOver := true,
                                       status := Status.wins s1.currentPlayer } winResult).isNone
    | none => false

/-- The element `this.cells[bestMove]` for a `bestMove` in 0..8. -/
def cellAt (bestMove : Int) : Option (Fin 9) :=
  cellIndices.find? (fun i => decide ((i.val : Int) = bestMove))

/-- The method `makeAIMove`; `none` only when the search ran out of fuel. -/
def makeAIMove (s : Game) : Option Game :=
  match findBestMove s with
  | none => none
  | some (bestMove, s1) =>
    if bestMove ≠ -1 then
      match cellAt bestMove with
      | some i => some (makeMove s1 i)
      | none => some s1
    else some s1

/-! ## Lines -/

/-- The three cells of the pattern all hold the mark `m`. -/
def LineHeld (board : Board) (p : Fin 9 × Fin 9 × Fin 9) (m : Mark) : Prop :=
  board p.1 = some m ∧ board p.2.1 = some m ∧ board p.2.2 = some m

instance (board : Board) (p : Fin 9 × Fin 9 × Fin 9) (m : Mark) :
    Decidable (LineHeld board p m) := by
  unfold LineHeld; infer_instance

/-- The line at position `k` of the eight listed lines holds three marks `m`. -/
def CompleteAt (board : Board) (k : Nat) (m : Mark) : Prop :=
  ∃ p, winPatterns.get? k = some p ∧ LineHeld board p m

/-- The line at position `k` holds three equal non-empty marks. -/
def LineComplete (board : Board) (k : Nat) : Prop :=
  ∃ m, CompleteAt board k m

instance (board : Board) (k : Nat) (m : Mark) : Decidable (CompleteAt board k m) :=
  match h : winPatterns.get? k with
  | none => isFalse (by rintro ⟨p, hp, -⟩; rw [h] at hp; cases hp)
  | some p =>
    if hp : LineHeld board p m then isTrue ⟨p, h, hp⟩
    else isFalse (by rintro ⟨q, hq, hm⟩; rw [h] at hq; cases hq; exact hp hm)

instance (board : Board) (k : Nat) : Decidable (LineComplete board k) :=
  if hx : CompleteAt board k Mark.X then isTrue ⟨Mark.X, hx⟩
  else if ho : CompleteAt board k Mark.O then isTrue ⟨Mark.O, ho⟩
  else isFalse (by
    rintro ⟨m, hm⟩
    cases m
    · exact hx hm
    · exact ho hm)

/-- Some cell of the board is empty. -/
def HasEmpty (board : Board) : Prop := ∃ i, board i = none

/-- The board whose cells are the first nine entries of the list (cells
beyond the list are empty). -/
def boardOf (l : List Cell) : Board :=
  { cells := (l ++ List.replicate 9 none).take 9
    size_eq := by rw [List.length_take, List.length_append, List.length_replicate]; omega }

/-! ## The search without the state

The search writes marks into the live board and takes them out again; the
functions below compute the same scores on board values. `minimax_eq` and
`findBestMove_eq` relate the two. -/

/-- The fold of one `for` loop of the search over the cells that are empty on
`board`, with the score of cell `i` given by `g i`. -/
def foldEmpties (board : Board) (pick : JSNum → JSNum → JSNum) (g : Fin 9 → JSNum)
    (init : JSNum) : JSNum :=
  cellIndices.foldl (fun acc i => if board i = none then pick (g i) acc else acc) init

/-- The score returned by `minimax` on the board, for enough fuel. -/
def searchValue : Nat → Board → Bool → JSNum
  | 0, _, _ => JSNum.negInf
  | fuel + 1, board, isMaximizing =>
    match checkWinner board with
    | some result => scores result.winner
    | none =>
      if isMaximizing then
        foldEmpties board JSNum.max
          (fun i => searchValue fuel (board.set i (some Mark.O)) false) JSNum.negInf
      else
        foldEmpties board JSNum.min
          (fun i => searchValue fuel (board.set i (some Mark.X)) true) JSNum.posInf

/-- The pair `(bestScore, bestMove)` at the end of the loop of `findBestMove`,
with the score of cell `i` given by `g i`. -/
def bestOf (board : Board) (g : Fin 9 → JSNum) : JSNum × Int :=
  cellIndices.foldl
    (fun acc i =>
      if board i = none then
        if JSNum.gt (g i) acc.1 then (g i, (i.val : Int)) else acc
      else acc)
    (JSNum.negInf, (-1 : Int))

/-! ## The game as the claims word it -/

/-- The player `m` holds one of the eight lines. -/
def Wins (board : Board) (m : Mark) : Prop := ∃ k, k < 8 ∧ CompleteAt board k m

instance (board : Board) (m : Mark) : Decidable (Wins board m) := by
  unfold Wins; infer_instance

/-- The empty cells of the board, in ascending order. -/
def emptyCells (board : Board) : List (Fin 9) :=
  cellIndices.filter (fun i => board i = none)

/-- The largest entry of a list of integers (0 for the empty list). -/
def listMax : List Int → Int
  | [] => 0
  | [a] => a
  | a :: rest => max a (listMax rest)

/-- The smallest entry of a list of integers (0 for the empty list). -/
def listMin : List Int → Int
  | [] => 0
  | [a] => a
  | a :: rest => min a (listMin rest)

/-- The exhaustive minimax value of a position, to the given depth: a win of O
is worth 1, a win of X is worth -1, a filled board without a win 0; otherwise
the player to move (O when `oToMove`, else X) places a mark on an empty cell, O
taking the largest and X the smallest value of the positions that result. -/
def gameValueAt : Nat → Board → Bool → Int
  | 0, _, _ => 0
  | depth + 1, board, oToMove =>
    if Wins board Mark.O then 1
    else if Wins board Mark.X then -1
    else if emptyCells board = [] then 0
    else if oToMove then
      listMax ((emptyCells board).map (fun i => gameValueAt depth (board.set i (some Mark.O)) false))
    else
      listMin ((emptyCells board).map (fun i => gameValueAt depth (board.set i (some Mark.X)) true))

/-- The exhaustive minimax value of a position: the search is as deep as there
are empty cells. -/
def gameValue (board : Board) (oToMove : Bool) : Int :=
  gameValueAt ((emptyCells board).length + 1) board oToMove

/-- The score of the empty cell `i` for O: the value of the position after O
is placed there, with X to move. -/
def cellScore (board : Board) (i : Fin 9) : Int :=
  gameValue (board.set i (some Mark.O)) false

/-! ## Moves and histories -/

/-- The guard of `makeMove` lets the move on cell `i` through: the game is
not over and the cell element carries neither the `x` nor the `o` class. -/
def Accepted (s : Game) (i : Fin 9) : Prop :=
  s.gameOver = false ∧ (s.cells i).x = false ∧ (s.cells i).o = false

instance (s : Game) (i : Fin 9) : Decidable (Accepted s i) := by
  unfold Accepted; infer_instance

/-- The page shows what the board holds: a cell element carries a mark class
exactly when the board holds a mark at its index. -/
def Synced (s : Game) : Prop :=
  ∀ i, ((s.cells i).x || (s.cells i).o) = true ↔ s.board i ≠ none

/-- The states the object can be in: the constructor's state and what the
methods `makeMove` (on any cell), `makeAIMove`, `resetGame` and `setGameMode`
make of such a state. -/
inductive Reachable : Game → Prop where
  | init : Reachable initial
  | move (s : Game) (i : Fin 9) : Reachable s → Reachable (makeMove s i)
  | ai (s t : Game) : Reachable s → makeAIMove s = some t → Reachable t
  | reset (s : Game) : Reachable s → Reachable (resetGame s)
  | mode (s : Game) (v : Bool) : Reachable s → Reachable (setGameMode s v)

/-- The state after the cells of the list are clicked one after the other. -/
def playMoves (s : Game) (moves : List (Fin 9)) : Game :=
  moves.foldl makeMove s

/-- The games in which X moves first on a fresh board, every move of X is a
call of `makeMove` and every reply of O is the call of `makeAIMove`. -/
inductive AIPlay : Game → Prop where
  | start (s : Game) : AIPlay (resetGame s)
  | human (s : Game) (i : Fin 9) : AIPlay s → s.currentPlayer = Mark.X → AIPlay (makeMove s i)
  | reply (s t : Game) : AIPlay s → s.currentPlayer = Mark.O → makeAIMove s = some t → AIPlay t

/-- What holds of every state of a game against the search: the page mirrors
the board, X holds no line, and while the game is not over no result is due and
the position is worth at least a draw to O. -/
def Safe (s : Game) : Prop :=
  Synced s ∧ ¬ Wins s.board Mark.X ∧
    (s.gameOver = false →
      checkWinner s.board = none ∧ 0 ≤ gameValue s.board (decide (s.currentPlayer = Mark.O)))

/-! ## Bounds on the value of a position, by search

Checking that the value of a position is at least `t` does not need the
whole game tree: where O moves one good reply is enough. The functions below
work on the nine cells of a board written out as a list. -/

/-- The board with the nine given cells. -/
def mk9 (c0 c1 c2 c3 c4 c5 c6 c7 c8 : Cell) : Board :=
  { cells := [c0, c1, c2, c3, c4, c5, c6, c7, c8]
    size_eq := rfl }

/-- The cell holds the mark `m`. -/
def cellIs (m : Mark) : Cell → Bool
  | none => false
  | some n =>
    match m, n with
    | Mark.X, Mark.X => true
    | Mark.O, Mark.O => true
    | _, _ => false

/-- The player `m` holds one of the eight lines of the nine cells. -/
def wonBy (m : Mark) : List Cell → Bool
  | [a, b, c, d, e, f, g, h, i] =>
    (cellIs m a && cellIs m b && cellIs m c) || (cellIs m d && cellIs m e && cellIs m f) ||
    (cellIs m g && cellIs m h && cellIs m i) || (cellIs m a && cellIs m d && cellIs m g) ||
    (cellIs m b && cellIs m e && cellIs m h) || (cellIs m c && cellIs m f && cellIs m i) ||
    (cellIs m a && cellIs m e && cellIs m i) || (cellIs m c && cellIs m e && cellIs m g)
  | _ => false

/-- The list holding `l` when the cell `c` is empty, no list otherwise. -/
def vacant (c : Cell) (l : List Cell) : List (List Cell) :=
  match c with
  | none => [l]
  | some _ => []

/-- The positions one move of `m` away. -/
def successors (m : Mark) : List Cell → List (List Cell)
  | [a, b, c, d, e, f, g, h, i] =>
    vacant a [some m, b, c, d, e, f, g, h, i] ++ (vacant b [a, some m, c, d, e, f, g, h, i] ++
    (vacant c [a, b, some m, d, e, f, g, h, i] ++ (vacant d [a, b, c, some m, e, f, g, h, i] ++
    (vacant e [a, b, c, d, some m, f, g, h, i] ++ (vacant f [a, b, c, d, e, some m, g, h, i] ++
    (vacant g [a, b, c, d, e, f, some m, h, i] ++ (vacant h [a, b, c, d, e, f, g, some m, i] ++
    vacant i [a, b, c, d, e, f, g, h, some m])))))))
  | _ => []

/-- A search that answers `true` only when the value of the position, to the
given depth, is at least `t`: where O moves one successor must pass, where X
moves all must. -/
def atLeast : Nat → Int → List Cell → Bool → Bool
  | 0, _, _, _ => false
  | d + 1, t, cells, oToMove =>
    if wonBy Mark.O cells then decide (t ≤ 1)
    else if wonBy Mark.X cells then decide (t ≤ -1)
    else if oToMove then
      match successors Mark.O cells with
      | [] => decide (t ≤ 0)
      | next => next.any (fun c => atLeast d t c false)
    else
      match successors Mark.X cells with
      | [] => decide (t ≤ 0)
      | next => next.all (fun c => atLeast d t c true)

/-! ## Further notions for the properties -/

/-- The integer a finite score holds (0 for the two infinities). -/
def JSNum.toInt : JSNum → Int
  | JSNum.fin n => n
  | _ => 0

/-- The cells of the board that hold the mark `m`. -/
def marked (board : Board) (m : Mark) : Finset (Fin 9) :=
  Finset.univ.filter (fun i => board i = some m)

/-- The number of marks `m` on the board. -/
def countMark (board : Board) (m : Mark) : Nat := (marked board m).card

/-- The cells of the line at position `k` of the eight listed lines. -/
def lineCells (k : Nat) : Finset (Fin 9) :=
  match winPatterns.get? k with
  | some (a, b, c) => {a, b, c}
  | none => ∅

/-- The state `s` is reached from the constructor's state by `n` calls of
`makeMove` that the guard let through: `n` legal moves, X and O in turn. -/
inductive Played : Nat → Game → Prop where
  | start : Played 0 initial
  | step (n : Nat) (s : Game) (i : Fin 9) : Played n s → Accepted s i → Played (n + 1) (makeMove s i)

/-- Every click of the list, made one after the other from `s`, passes the
guard of `makeMove`. -/
def allAccepted : Game → List (Fin 9) → Bool
  | _, [] => true
  | s, i :: rest => decide (Accepted s i) && allAccepted (makeMove s i) rest

/-- A search that answers `true` only when the value of the position, to the
given depth, is at most `t`: where X moves one successor must pass, where O
moves all must. -/
def atMost : Nat → Int → List Cell → Bool → Bool
  | 0, _, _, _ => false
  | d + 1, t, cells, oToMove =>
    if wonBy Mark.O cells then decide (1 ≤ t)
    else if wonBy Mark.X cells then decide (-1 ≤ t)
    else if oToMove then
      match successors Mark.O cells with
      | [] => decide (0 ≤ t)
      | next => next.all (fun c => atMost d t c false)
    else
      match successors Mark.X cells with
      | [] => decide (0 ≤ t)
      | next => next.any (fun c => atMost d t c true)

/-- The board `X X - / O - - / - - -`. -/
def blockBoard : Board := boardOf [some Mark.X, some Mark.X, none, some Mark.O]

/-! ## Facts about `checkWinner` -/

theorem Board.get_set (b : Board) (i : Fin 9) (v : Cell) (j : Fin 9) :
    (b.set i v) j = if j = i then v else b j := by
  show (b.cells.set i.val v).getD j.val none = if j = i then v else b.cells.getD j.val none
  have hj : j.val < b.cells.length := by rw [b.size_eq]; exact j.isLt
  by_cases h : j = i
  · subst h
    rw [if_pos rfl, List.getD_eq_getElem _ _ (by rw [List.length_set]; exact hj)]
    simp
  · rw [if_neg h, List.getD_eq_getElem _ _ (by rw [List.length_set]; exact hj),
      List.getD_eq_getElem _ _ hj]
    have : i.val ≠ j.val := fun e => h (Fin.ext e.symm)
    simp [List.getElem_set_ne this]

theorem Board.ext {b c : Board} (h : ∀ i : Fin 9, b i = c i) : b = c := by
  obtain ⟨l, hl⟩ := b
  obtain ⟨r, hr⟩ := c
  have : l = r := by
    apply List.ext_getElem (by rw [hl, hr])
    intro n h1 h2
    have hn : n < 9 := by rw [hl] at h1; exact h1
    have := h ⟨n, hn⟩
    change l.getD n none = r.getD n none at this
    rwa [List.getD_eq_getElem _ _ h1, List.getD_eq_getElem _ _ h2] at this
  subst this
  rfl

/-- Writing a mark into an empty cell and `null` back gives the board back. -/
theorem Board.set_restore (b : Board) (i : Fin 9) (v : Cell) (h : b i = none) :
    (b.set i v).set i none = b := by
  apply Board.ext
  intro j
  rw [Board.get_set, Board.get_set]
  by_cases hj : j = i
  · rw [if_pos hj, hj, h]
  · rw [if_neg hj, if_neg hj]

theorem emptyBoard_get (i : Fin 9) : emptyBoard i = none := by
  revert i; decide

theorem mem_cellIndices (i : Fin 9) : i ∈ cellIndices := by
  revert i; decide

theorem boardFull_iff (board : Board) : boardFull board = true ↔ ∀ i, board i ≠ none := by
  unfold boardFull
  rw [List.all_eq_true]
  constructor
  · intro h i
    have := h i (mem_cellIndices i)
    intro hi; rw [hi] at this; simp at this
  · intro h i _
    cases hb : board i with
    | none => exact absurd hb (h i)
    | some m => rfl

theorem boardFull_false_iff (board : Board) : boardFull board = false ↔ HasEmpty board := by
  rw [← Bool.not_eq_true, boardFull_iff]
  unfold HasEmpty
  push_neg
  rfl

/-- What the scan returns when it stops: the first pattern of the list that
is held, at its offset. -/
theorem scanPatterns_some (board : Board) (ps : List (Fin 9 × Fin 9 × Fin 9)) (i : Nat)
    (r : WinResult) (h : scanPatterns board i ps = some r) :
    ∃ k p m, ps.get? k = some p ∧ LineHeld board p m ∧
      r = { winner := Winner.ofMark m, pattern := some (i + k) } ∧
      ∀ j q, j < k → ps.get? j = some q → ∀ n, ¬ LineHeld board q n := by
  induction ps generalizing i with
  | nil => simp [scanPatterns] at h
  | cons q rest ih =>
    obtain ⟨a, b, c⟩ := q
    have miss : (¬ ∃ n, LineHeld board (a, b, c) n) → scanPatterns board (i + 1) rest = some r →
        ∃ k p m, (((a, b, c)) :: rest).get? k = some p ∧ LineHeld board p m ∧
          r = { winner := Winner.ofMark m, pattern := some (i + k) } ∧
          ∀ j q, j < k → (((a, b, c)) :: rest).get? j = some q → ∀ n, ¬ LineHeld board q n := by
      intro hno hrest
      obtain ⟨k, p, m, hk, hp, hr, hmin⟩ := ih (i + 1) hrest
      refine ⟨k + 1, p, m, by simpa using hk, hp, by rw [hr]; congr 2; omega, ?_⟩
      intro j q hj hq n hn
      cases j with
      | zero =>
        simp at hq
        subst hq
        exact hno ⟨n, hn⟩
      | succ j => exact hmin j q (by omega) (by simpa using hq) n hn
    unfold scanPatterns at h
    cases ha : board a with
    | none =>
      rw [ha] at h
      simp only at h
      refine miss ?_ h
      rintro ⟨n, hn, -⟩
      simp only at hn
      rw [ha] at hn
      cases hn
    | some m =>
      rw [ha] at h
      simp only at h
      by_cases hc : some m = board b ∧ some m = board c
      · rw [if_pos hc] at h
        refine ⟨0, (a, b, c), m, rfl, ⟨ha, hc.1.symm, hc.2.symm⟩, ?_, ?_⟩
        · simpa using h.symm
        · intro j q hj; omega
      · rw [if_neg hc] at h
        refine miss ?_ h
        rintro ⟨n, hn1, hn2, hn3⟩
        simp only at hn1 hn2 hn3
        apply hc
        rw [hn2, hn3, ← hn1, ha]
        exact ⟨rfl, rfl⟩

/-- The scan finds nothing exactly when no pattern of the list is held. -/
theorem scanPatterns_none (board : Board) (ps : List (Fin 9 × Fin 9 × Fin 9)) (i : Nat) :
    scanPatterns board i ps = none ↔ ∀ p ∈ ps, ∀ m, ¬ LineHeld board p m := by
  induction ps generalizing i with
  | nil => simp [scanPatterns]
  | cons q rest ih =>
    obtain ⟨a, b, c⟩ := q
    unfold scanPatterns
    cases ha : board a with
    | none =>
      simp only
      rw [ih (i + 1)]
      constructor
      · intro h p hp m hm
        rcases List.mem_cons.mp hp with rfl | hp
        · have := hm.1
          simp only at this
          rw [ha] at this
          cases this
        · exact h p hp m hm
      · intro h p hp
        exact h p (List.mem_cons_of_mem _ hp)
    | some m =>
      simp only
      by_cases hc : some m = board b ∧ some m = board c
      · rw [if_pos hc]
        simp only [reduceCtorEq, false_iff]
        intro h
        exact h (a, b, c) (List.mem_cons_self _ _) m ⟨ha, hc.1.symm, hc.2.symm⟩
      · rw [if_neg hc, ih (i + 1)]
        constructor
        · intro h p hp n hn
          rcases List.mem_cons.mp hp with rfl | hp
          · obtain ⟨hn1, hn2, hn3⟩ := hn
            simp only at hn1 hn2 hn3
            apply hc
            rw [hn2, hn3, ← hn1, ha]
            exact ⟨rfl, rfl⟩
          · exact h p hp n hn
        · intro h p hp
          exact h p (List.mem_cons_of_mem _ hp)

theorem length_winPatterns : winPatterns.length = 8 := rfl

/-- No line of the eight is complete exactly when the scan over the whole
table finds nothing. -/
theorem scan_winPatterns_none (board : Board) :
    scanPatterns board 0 winPatterns = none ↔ ∀ k, ¬ LineComplete board k := by
  rw [scanPatterns_none]
  constructor
  · intro h k hk
    obtain ⟨m, p, hp, hm⟩ := hk
    exact h p (List.get?_mem hp) m hm
  · intro h p hp m hm
    obtain ⟨k, hk⟩ := List.mem_iff_get?.mp hp
    exact h k ⟨m, p, hk, hm⟩

/-- C1: on a board where at least one of the eight lines holds three equal
non-empty marks, `checkWinner` returns a result whose `pattern` is the smallest
position of such a line and whose `winner` is the mark held by that line. -/
theorem checkWinner_first_complete_line (board : Board)
    (h : ∃ k, k < 8 ∧ LineComplete board k) :
    ∃ k m, k < 8 ∧ CompleteAt board k m ∧ (∀ j, j < k → ¬ LineComplete board j) ∧
      checkWinner board = some { winner := Winner.ofMark m, pattern := some k } := by
  obtain ⟨k0, -, hk0⟩ := h
  cases hs : scanPatterns board 0 winPatterns with
  | none => exact absurd hk0 ((scan_winPatterns_none board).mp hs k0)
  | some r =>
    obtain ⟨k, p, m, hk, hp, hr, hmin⟩ := scanPatterns_some board winPatterns 0 r hs
    refine ⟨k, m, ?_, ⟨p, hk, hp⟩, ?_, ?_⟩
    · have := (List.get?_eq_some.mp hk).1
      simpa [length_winPatterns] using this
    · rintro j hj ⟨n, q, hq, hn⟩
      exact hmin j q hj hq n hn
    · unfold checkWinner
      rw [hs, hr]
      simp

/-- An instance of C1: the board `X X X / O O - / - - -`. -/
theorem checkWinner_first_complete_line_witness :
    ∃ k m, k < 8 ∧
      CompleteAt (boardOf [some Mark.X, some Mark.X, some Mark.X, some Mark.O, some Mark.O]) k m ∧
      (∀ j, j < k →
        ¬ LineComplete (boardOf [some Mark.X, some Mark.X, some Mark.X, some Mark.O, some Mark.O]) j) ∧
      checkWinner (boardOf [some Mark.X, some Mark.X, some Mark.X, some Mark.O, some Mark.O]) =
        some { winner := Winner.ofMark m, pattern := some k } :=
  checkWinner_first_complete_line _ ⟨0, by decide, Mark.X, (0, 1, 2), rfl, by decide⟩

/-- C2: on a board where none of the eight lines holds three equal non-empty
marks, `checkWinner` returns the draw result (`winner: 'draw'`, `pattern: null`)
when all nine cells are filled, and `null` when some cell is empty. -/
theorem checkWinner_no_line (board : Board) (h : ∀ k, k < 8 → ¬ LineComplete board k) :
    ((∀ i, board i ≠ none) →
        checkWinner board = some { winner := Winner.draw, pattern := none }) ∧
      (HasEmpty board → checkWinner board = none) := by
  have hs : scanPatterns board 0 winPatterns = none := by
    rw [scan_winPatterns_none]
    intro k hk
    obtain ⟨m, p, hp, hm⟩ := hk
    have hlt : k < 8 := by
      have := (List.get?_eq_some.mp hp).1
      simpa [length_winPatterns] using this
    exact h k hlt ⟨m, p, hp, hm⟩
  constructor
  · intro hfull
    unfold checkWinner
    rw [hs]
    simp [(boardFull_iff board).mpr hfull]
  · intro hempty
    unfold checkWinner
    rw [hs]
    simp [(boardFull_false_iff board).mpr hempty]

/-- An instance of C2: the filled board `X O X / X O O / O X X`. -/
theorem checkWinner_no_line_witness :
    ((∀ i, boardOf [some Mark.X, some Mark.O, some Mark.X, some Mark.X, some Mark.O,
          some Mark.O, some Mark.O, some Mark.X, some Mark.X] i ≠ none) →
        checkWinner (boardOf [some Mark.X, some Mark.O, some Mark.X, some Mark.X, some Mark.O,
          some Mark.O, some Mark.O, some Mark.X, some Mark.X]) =
          some { winner := Winner.draw, pattern := none }) ∧
      (HasEmpty (boardOf [some Mark.X, some Mark.O, some Mark.X, some Mark.X, some Mark.O,
          some Mark.O, some Mark.O, some Mark.X, some Mark.X]) →
        checkWinner (boardOf [some Mark.X, some Mark.O, some Mark.X, some Mark.X, some Mark.O,
          some Mark.O, some Mark.O, some Mark.X, some Mark.X]) = none) :=
  checkWinner_no_line _ (by decide)

/-! ## The search leaves the state as it found it -/

theorem length_emptyCells_le (board : Board) : (emptyCells board).length ≤ 9 :=
  List.length_filter_le _ cellIndices

theorem mem_emptyCells (board : Board) (i : Fin 9) : i ∈ emptyCells board ↔ board i = none := by
  unfold emptyCells
  rw [List.mem_filter]
  simp [mem_cellIndices]

/-- Filling an empty cell leaves fewer empty cells. -/
theorem length_emptyCells_set_lt (board : Board) (i : Fin 9) (m : Mark) (h : board i = none) :
    (emptyCells (board.set i (some m))).length < (emptyCells board).length := by
  have e : emptyCells (board.set i (some m)) = (emptyCells board).filter (fun j => decide (j ≠ i)) := by
    unfold emptyCells
    rw [List.filter_filter]
    apply List.filter_congr
    intro j _
    rw [Board.get_set]
    by_cases hj : j = i
    · simp [hj]
    · simp [hj]
  rw [e, List.length_filter_lt_length_iff_exists]
  exact ⟨i, (mem_emptyCells board i).mpr h, by simp⟩

theorem set_board_restore (s : Game) (i : Fin 9) (v : Cell) (h : s.board i = none) :
    ({ ({ s with board := s.board.set i v } : Game) with
        board := (s.board.set i v).set i none } : Game) = s := by
  cases s
  simp only [Game.mk.injEq, and_true]
  exact Board.set_restore _ i v h

/-- A loop of the search whose calls return the scores `g` and leave the state
alone returns the fold of those scores and leaves the state alone. -/
theorem searchLoop_eq (call : Game → Option (JSNum × Game)) (mark : Mark)
    (pick : JSNum → JSNum → JSNum) (init : JSNum) (s : Game) (g : Fin 9 → JSNum)
    (h : ∀ i, s.board i = none →
      call { s with board := s.board.set i (some mark) } =
        some (g i, { s with board := s.board.set i (some mark) })) :
    searchLoop call mark pick init s = some (foldEmpties s.board pick g init, s) := by
  unfold searchLoop foldEmpties
  generalize cellIndices = l
  induction l generalizing init with
  | nil => rfl
  | cons i rest ih =>
    rw [List.foldl_cons, List.foldl_cons]
    by_cases hi : s.board i = none
    · simp only [hi, if_true, h i hi]
      rw [set_board_restore s i _ hi]
      exact ih _
    · simp only [hi, if_false]
      exact ih _

/-- With fuel beyond the number of empty cells, `minimax` returns the score
`searchValue` and leaves the object as it found it. -/
theorem minimax_eq (fuel : Nat) (s : Game) (depth : Nat) (isMaximizing : Bool)
    (h : (emptyCells s.board).length < fuel) :
    minimax fuel s depth isMaximizing = some (searchValue fuel s.board isMaximizing, s) := by
  induction fuel generalizing s depth isMaximizing with
  | zero => omega
  | succ fuel ih =>
    unfold minimax searchValue
    cases hw : checkWinner s.board with
    | some r => rfl
    | none =>
      simp only
      have hcall : ∀ (mark : Mark) (next : Bool) (i : Fin 9), s.board i = none →
          minimax fuel { s with board := s.board.set i (some mark) } (depth + 1) next =
            some (searchValue fuel (s.board.set i (some mark)) next,
              { s with board := s.board.set i (some mark) }) := by
        intro mark next i hi
        apply ih
        have := length_emptyCells_set_lt s.board i mark hi
        simp only
        omega
      cases isMaximizing with
      | true =>
        simp only [if_true]
        exact searchLoop_eq _ Mark.O JSNum.max JSNum.negInf s _ (hcall Mark.O false)
      | false =>
        simp only [Bool.false_eq_true, if_false]
        exact searchLoop_eq _ Mark.X JSNum.min JSNum.posInf s _ (hcall Mark.X true)

/-- The method `findBestMove` returns the move `bestOf` picks from the scores
of the search, and leaves the object as it found it. -/
theorem findBestMove_eq (s : Game) :
    findBestMove s =
      some ((bestOf s.board
        (fun i => searchValue minimaxFuel (s.board.set i (some Mark.O)) false)).2, s) := by
  unfold findBestMove bestOf
  have key : ∀ (l : List (Fin 9)) (acc : JSNum × Int),
      l.foldl
        (fun acc i =>
          match acc with
          | none => none
          | some (bestScore, bestMove, s) =>
            if s.board i = none then
              match minimax minimaxFuel { s with board := s.board.set i (some Mark.O) } 0 false with
              | none => none
              | some (score, s2) =>
                if JSNum.gt score bestScore then
                  some (score, (i.val : Int), { s2 with board := s2.board.set i none })
                else
                  some (bestScore, bestMove, { s2 with board := s2.board.set i none })
            else some (bestScore, bestMove, s))
        (some (acc.1, acc.2, s)) =
      some ((l.foldl
        (fun acc i =>
          if s.board i = none then
            if JSNum.gt (searchValue minimaxFuel (s.board.set i (some Mark.O)) false) acc.1 then
              (searchValue minimaxFuel (s.board.set i (some Mark.O)) false, (i.val : Int))
            else acc
          else acc) acc).1,
        (l.foldl
        (fun acc i =>
          if s.board i = none then
            if JSNum.gt (searchValue minimaxFuel (s.board.set i (some Mark.O)) false) acc.1 then
              (searchValue minimaxFuel (s.board.set i (some Mark.O)) false, (i.val : Int))
            else acc
          else acc) acc).2, s) := by
    intro l
    induction l with
    | nil => intro acc; rfl
    | cons i rest ih =>
      intro acc
      rw [List.foldl_cons, List.foldl_cons]
      by_cases hi : s.board i = none
      · have hfuel : (emptyCells (s.board.set i (some Mark.O))).length < minimaxFuel := by
          have := length_emptyCells_le (s.board.set i (some Mark.O))
          unfold minimaxFuel
          omega
        have hm := minimax_eq minimaxFuel { s with board := s.board.set i (some Mark.O) } 0 false hfuel
        simp only at hm
        simp only [hi, if_true, hm]
        rw [set_board_restore s i _ hi]
        by_cases hg : JSNum.gt (searchValue minimaxFuel (s.board.set i (some Mark.O)) false) acc.1 = true
        · simp only [hg, if_true]
          exact ih (_, _)
        · simp only [hg]
          exact ih acc
      · simp only [hi, if_false]
        exact ih acc
  have := key cellIndices (JSNum.negInf, (-1 : Int))
  simp only at this
  rw [this]
  rfl

/-! ## Facts about `makeMove` -/

theorem checkWinner_eq_none_iff (board : Board) :
    checkWinner board = none ↔ (∀ k, ¬ LineComplete board k) ∧ HasEmpty board := by
  unfold checkWinner
  cases hs : scanPatterns board 0 winPatterns with
  | some r =>
    simp only [reduceCtorEq, false_iff]
    intro h
    rw [(scan_winPatterns_none board).mpr h.1] at hs
    cases hs
  | none =>
    have hl := (scan_winPatterns_none board).mp hs
    by_cases hf : boardFull board = true
    · simp only [hf, if_true, reduceCtorEq, false_iff]
      rintro ⟨-, i, hi⟩
      exact (boardFull_iff board).mp hf i hi
    · simp only [hf]
      simp only [Bool.false_eq_true, if_false, true_iff]
      exact ⟨hl, (boardFull_false_iff board).mp (by simpa using hf)⟩

/-- When `checkWinner` finds nothing the board is not full: the draw branch
of `makeMove` is never taken. -/
theorem boardFull_of_checkWinner_none (board : Board) (h : checkWinner board = none) :
    boardFull board = false :=
  (boardFull_false_iff board).mpr ((checkWinner_eq_none_iff board).mp h).2

theorem makeMove_of_not_accepted (s : Game) (i : Fin 9) (h : ¬ Accepted s i) :
    makeMove s i = s := by
  unfold makeMove
  have : (s.gameOver || (s.cells i).x || (s.cells i).o) = true := by
    unfold Accepted at h
    cases hg : s.gameOver <;> cases hx : (s.cells i).x <;> cases ho : (s.cells i).o <;>
      simp_all
  rw [if_pos this]

theorem guard_of_accepted (s : Game) (i : Fin 9) (h : Accepted s i) :
    ¬ (s.gameOver || (s.cells i).x || (s.cells i).o) = true := by
  obtain ⟨h1, h2, h3⟩ := h
  simp [h1, h2, h3]

theorem highlight_fields (s t : Game) (r : WinResult) (h : highlightWinningCells s r = some t) :
    t.board = s.board ∧ t.currentPlayer = s.currentPlayer ∧ t.gameOver = s.gameOver ∧
      t.status = s.status ∧ t.vsAI = s.vsAI ∧ t.pendingAI = s.pendingAI ∧
      ∀ j, (t.cells j).x = (s.cells j).x ∧ (t.cells j).o = (s.cells j).o := by
  unfold highlightWinningCells at h
  cases hp : r.pattern with
  | none => rw [hp] at h; cases h
  | some p =>
    rw [hp] at h
    simp only at h
    cases hq : winPatterns.get? p with
    | none => rw [hq] at h; cases h
    | some q =>
      obtain ⟨a, b, c⟩ := q
      rw [hq] at h
      simp only [Option.some.injEq] at h
      subst h
      refine ⟨rfl, rfl, rfl, rfl, rfl, rfl, ?_⟩
      intro j
      simp only [addWinner]
      split_ifs <;> exact ⟨rfl, rfl⟩

/-- The fields of the state after an accepted move. -/
theorem makeMove_accepted (s : Game) (i : Fin 9) (h : Accepted s i) :
    (makeMove s i).board = s.board.set i (some s.currentPlayer) ∧
    (makeMove s i).gameOver = (checkWinner (s.board.set i (some s.currentPlayer))).isSome ∧
    (makeMove s i).currentPlayer =
      (if (checkWinner (s.board.set i (some s.currentPlayer))).isSome then s.currentPlayer
       else s.currentPlayer.other) ∧
    (makeMove s i).status =
      (if (checkWinner (s.board.set i (some s.currentPlayer))).isSome then
        Status.wins s.currentPlayer
       else Status.turn s.currentPlayer.other) ∧
    (makeMove s i).vsAI = s.vsAI ∧
    ∀ j, ((makeMove s i).cells j).x = ((placeMark s i).cells j).x ∧
      ((makeMove s i).cells j).o = ((placeMark s i).cells j).o := by
  unfold makeMove
  rw [if_neg (guard_of_accepted s i h)]
  simp only
  have hb : (placeMark s i).board = s.board.set i (some s.currentPlayer) := rfl
  have hc : (placeMark s i).currentPlayer = s.currentPlayer := rfl
  rw [hb, hc]
  cases hw : checkWinner (s.board.set i (some s.currentPlayer)) with
  | some r =>
    simp only [Option.isSome_some, if_true]
    split
    · next t hh =>
      obtain ⟨h1, h2, h3, h4, h5, -, h7⟩ := highlight_fields _ t r hh
      exact ⟨h1, h3, h2, h4, h5, h7⟩
    · exact ⟨rfl, rfl, rfl, rfl, rfl, fun j => ⟨rfl, rfl⟩⟩
  | none =>
    simp only [Option.isSome_none, Bool.false_eq_true, if_false]
    rw [boardFull_of_checkWinner_none _ hw]
    simp only [Bool.false_eq_true, if_false]
    split_ifs <;> exact ⟨rfl, h.1, rfl, rfl, rfl, fun j => ⟨rfl, rfl⟩⟩

theorem makeMove_throws_iff (s : Game) (i : Fin 9) (h : Accepted s i) :
    makeMoveThrows s i = true ↔
      checkWinner (s.board.set i (some s.currentPlayer)) =
        some { winner := Winner.draw, pattern := none } := by
  unfold makeMoveThrows
  rw [if_neg (guard_of_accepted s i h)]
  simp only
  have hb : (placeMark s i).board = s.board.set i (some s.currentPlayer) := rfl
  rw [hb]
  cases hw : checkWinner (s.board.set i (some s.currentPlayer)) with
  | none => simp
  | some r =>
    simp only [Option.some.injEq]
    unfold checkWinner at hw
    cases hs : scanPatterns (s.board.set i (some s.currentPlayer)) 0 winPatterns with
    | some r2 =>
      rw [hs] at hw
      simp only [Option.some.injEq] at hw
      subst hw
      obtain ⟨k, p, m, hk, -, hr, -⟩ := scanPatterns_some _ _ _ _ hs
      subst hr
      have hk2 : winPatterns.get? (0 + k) = some p := by simpa using hk
      obtain ⟨a, b, c⟩ := p
      unfold highlightWinningCells
      simp only [hk2]
      simp
    | none =>
      rw [hs] at hw
      simp only at hw
      split_ifs at hw
      simp only [Option.some.injEq] at hw
      subst hw
      simp [highlightWinningCells]

/-! ## The page mirrors the board -/

theorem synced_resetGame (s : Game) : Synced (resetGame s) := by
  intro i
  simp [resetGame, emptyBoard_get]

theorem synced_initial : Synced initial := by
  intro i
  simp [initial, emptyBoard_get]

theorem synced_makeMove (s : Game) (i : Fin 9) (h : Synced s) : Synced (makeMove s i) := by
  by_cases ha : Accepted s i
  · obtain ⟨hb, -, -, -, -, hc⟩ := makeMove_accepted s i ha
    intro j
    rw [(hc j).1, (hc j).2, hb, Board.get_set]
    simp only [placeMark]
    by_cases hj : j = i
    · subst hj
      simp only [if_true]
      cases s.currentPlayer <;> simp [CellClasses.addMark]
    · simp only [hj, if_false]
      exact h j
  · rw [makeMove_of_not_accepted s i ha]
    exact h

/-- The method `makeAIMove` always returns, and what it does is either nothing
or one call of `makeMove`. -/
theorem makeAIMove_cases (s : Game) :
    makeAIMove s = some s ∨ ∃ i, makeAIMove s = some (makeMove s i) := by
  unfold makeAIMove
  rw [findBestMove_eq]
  simp only
  split_ifs
  · split
    · next i _ => exact Or.inr ⟨i, rfl⟩
    · exact Or.inl rfl
  · exact Or.inl rfl

theorem synced_of_reachable (s : Game) (h : Reachable s) : Synced s := by
  induction h with
  | init => exact synced_initial
  | move s i _ ih => exact synced_makeMove s i ih
  | ai s t _ ht ih =>
    rcases makeAIMove_cases s with h1 | ⟨i, h1⟩
    · rw [h1] at ht
      cases ht
      exact ih
    · rw [h1] at ht
      cases ht
      exact synced_makeMove s i ih
  | reset s _ _ => exact synced_resetGame s
  | mode s v _ _ => exact synced_resetGame _

/-- On a state whose page mirrors the board, the guard of `makeMove` lets a
move through exactly on the empty cells of a game that is not over. -/
theorem accepted_iff_of_synced (s : Game) (i : Fin 9) (h : Synced s) :
    Accepted s i ↔ s.gameOver = false ∧ s.board i = none := by
  unfold Accepted
  have := h i
  constructor
  · rintro ⟨h1, h2, h3⟩
    refine ⟨h1, ?_⟩
    by_contra hb
    have := this.mpr hb
    simp [h2, h3] at this
  · rintro ⟨h1, h2⟩
    have h3 : ¬ ((s.cells i).x || (s.cells i).o) = true := fun e => this.mp e h2
    cases hx : (s.cells i).x <;> cases ho : (s.cells i).o <;> simp_all

/-! ## The scores of the search are the values of the game -/

theorem filter_foldl {α β : Type} (p : α → Prop) [DecidablePred p] (f : β → α → β)
    (l : List α) (init : β) :
    l.foldl (fun acc i => if p i then f acc i else acc) init =
      (l.filter (fun i => decide (p i))).foldl f init := by
  induction l generalizing init with
  | nil => rfl
  | cons x rest ih =>
    rw [List.foldl_cons, List.filter_cons]
    by_cases hx : p x
    · simp only [hx, if_true, decide_True, List.foldl_cons]
      exact ih _
    · simp only [hx, if_false, decide_False, Bool.false_eq_true]
      exact ih _

theorem foldEmpties_eq (board : Board) (pick : JSNum → JSNum → JSNum) (g : Fin 9 → JSNum)
    (init : JSNum) :
    foldEmpties board pick g init =
      (emptyCells board).foldl (fun acc i => pick (g i) acc) init := by
  unfold foldEmpties emptyCells
  exact filter_foldl (fun i => board i = none) (fun acc i => pick (g i) acc) cellIndices init

theorem foldEmpties_congr (board : Board) (pick : JSNum → JSNum → JSNum) (g g2 : Fin 9 → JSNum)
    (init : JSNum) (h : ∀ i, board i = none → g i = g2 i) :
    foldEmpties board pick g init = foldEmpties board pick g2 init := by
  rw [foldEmpties_eq, foldEmpties_eq]
  have : ∀ l : List (Fin 9), (∀ i ∈ l, board i = none) → ∀ init,
      l.foldl (fun acc i => pick (g i) acc) init = l.foldl (fun acc i => pick (g2 i) acc) init := by
    intro l
    induction l with
    | nil => intro _ _; rfl
    | cons x rest ih =>
      intro hl init
      rw [List.foldl_cons, List.foldl_cons, h x (hl x (List.mem_cons_self _ _))]
      exact ih (fun i hi => hl i (List.mem_cons_of_mem _ hi)) _
  exact this _ (fun i hi => (mem_emptyCells board i).mp hi) init

theorem jsMax_fin (a b : Int) : JSNum.max (JSNum.fin a) (JSNum.fin b) = JSNum.fin (max a b) := by
  unfold JSNum.max JSNum.gt
  by_cases h : a < b
  · simp [h, max_eq_right (le_of_lt h)]
  · simp [h, max_eq_left (not_lt.mp h)]

theorem jsMin_fin (a b : Int) : JSNum.min (JSNum.fin a) (JSNum.fin b) = JSNum.fin (min a b) := by
  unfold JSNum.min JSNum.gt
  by_cases h : b < a
  · simp [h, min_eq_right (le_of_lt h)]
  · simp [h, min_eq_left (not_lt.mp h)]

theorem listMax_cons_cons (a x : Int) (r : List Int) :
    listMax (a :: x :: r) = max a (listMax (x :: r)) := rfl

theorem listMin_cons_cons (a x : Int) (r : List Int) :
    listMin (a :: x :: r) = min a (listMin (x :: r)) := rfl

theorem listMax_max_cons (a x : Int) (r : List Int) :
    listMax (max x a :: r) = listMax (a :: x :: r) := by
  cases r with
  | nil => exact max_comm x a
  | cons y r =>
    rw [listMax_cons_cons, listMax_cons_cons, listMax_cons_cons, max_assoc, max_left_comm,
      max_comm a]

theorem listMin_min_cons (a x : Int) (r : List Int) :
    listMin (min x a :: r) = listMin (a :: x :: r) := by
  cases r with
  | nil => exact min_comm x a
  | cons y r =>
    rw [listMin_cons_cons, listMin_cons_cons, listMin_cons_cons, min_assoc, min_left_comm,
      min_comm a]

theorem foldl_max_fin (sc : Fin 9 → Int) (l : List (Fin 9)) (a : Int) :
    l.foldl (fun acc i => JSNum.max (JSNum.fin (sc i)) acc) (JSNum.fin a) =
      JSNum.fin (listMax (a :: l.map sc)) := by
  induction l generalizing a with
  | nil => rfl
  | cons x rest ih =>
    rw [List.foldl_cons, jsMax_fin, ih, listMax_max_cons]
    rfl

theorem foldl_min_fin (sc : Fin 9 → Int) (l : List (Fin 9)) (a : Int) :
    l.foldl (fun acc i => JSNum.min (JSNum.fin (sc i)) acc) (JSNum.fin a) =
      JSNum.fin (listMin (a :: l.map sc)) := by
  induction l generalizing a with
  | nil => rfl
  | cons x rest ih =>
    rw [List.foldl_cons, jsMin_fin, ih, listMin_min_cons]
    rfl

/-- The maximising loop over integer scores returns their largest, when there
is an empty cell. -/
theorem foldEmpties_max (board : Board) (sc : Fin 9 → Int) (h : emptyCells board ≠ []) :
    foldEmpties board JSNum.max (fun i => JSNum.fin (sc i)) JSNum.negInf =
      JSNum.fin (listMax ((emptyCells board).map sc)) := by
  rw [foldEmpties_eq]
  cases he : emptyCells board with
  | nil => exact absurd he h
  | cons x rest =>
    rw [List.foldl_cons]
    have : JSNum.max (JSNum.fin (sc x)) JSNum.negInf = JSNum.fin (sc x) := rfl
    rw [this, foldl_max_fin]
    rfl

/-- The minimising loop over integer scores returns their smallest, when there
is an empty cell. -/
theorem foldEmpties_min (board : Board) (sc : Fin 9 → Int) (h : emptyCells board ≠ []) :
    foldEmpties board JSNum.min (fun i => JSNum.fin (sc i)) JSNum.posInf =
      JSNum.fin (listMin ((emptyCells board).map sc)) := by
  rw [foldEmpties_eq]
  cases he : emptyCells board with
  | nil => exact absurd he h
  | cons x rest =>
    rw [List.foldl_cons]
    have : JSNum.min (JSNum.fin (sc x)) JSNum.posInf = JSNum.fin (sc x) := rfl
    rw [this, foldl_min_fin]
    rfl

theorem emptyCells_eq_nil_iff (board : Board) : emptyCells board = [] ↔ ¬ HasEmpty board := by
  rw [List.eq_nil_iff_forall_not_mem]
  constructor
  · rintro h ⟨i, hi⟩
    exact h i ((mem_emptyCells board i).mpr hi)
  · intro h i hi
    exact h ⟨i, (mem_emptyCells board i).mp hi⟩

theorem wins_iff (board : Board) (m : Mark) : Wins board m ↔ ∃ k, CompleteAt board k m := by
  constructor
  · rintro ⟨k, -, hk⟩
    exact ⟨k, hk⟩
  · rintro ⟨k, p, hp, hm⟩
    refine ⟨k, ?_, p, hp, hm⟩
    have := (List.get?_eq_some.mp hp).1
    simpa [length_winPatterns] using this

theorem no_line_iff (board : Board) :
    (∀ k, ¬ LineComplete board k) ↔ ¬ Wins board Mark.X ∧ ¬ Wins board Mark.O := by
  simp only [wins_iff, LineComplete]
  constructor
  · intro h
    exact ⟨fun ⟨k, hk⟩ => h k ⟨_, hk⟩, fun ⟨k, hk⟩ => h k ⟨_, hk⟩⟩
  · rintro ⟨hx, ho⟩ k ⟨m, hm⟩
    cases m
    · exact hx ⟨k, hm⟩
    · exact ho ⟨k, hm⟩

/-- What `checkWinner` returns, in terms of who holds a line. -/
theorem checkWinner_some (board : Board) (r : WinResult) (h : checkWinner board = some r) :
    (∃ m, r.winner = Winner.ofMark m ∧ Wins board m) ∨
      (r.winner = Winner.draw ∧ ¬ Wins board Mark.X ∧ ¬ Wins board Mark.O ∧ ¬ HasEmpty board) := by
  unfold checkWinner at h
  cases hs : scanPatterns board 0 winPatterns with
  | some r2 =>
    rw [hs] at h
    simp only [Option.some.injEq] at h
    subst h
    obtain ⟨k, p, m, hk, hp, hr, -⟩ := scanPatterns_some _ _ _ _ hs
    left
    refine ⟨m, by rw [hr], (wins_iff board m).mpr ⟨k, p, hk, hp⟩⟩
  | none =>
    rw [hs] at h
    simp only at h
    split_ifs at h with hf
    simp only [Option.some.injEq] at h
    subst h
    right
    obtain ⟨hx, ho⟩ := (no_line_iff board).mp ((scan_winPatterns_none board).mp hs)
    refine ⟨rfl, hx, ho, ?_⟩
    rintro ⟨i, hi⟩
    exact (boardFull_iff board).mp hf i hi

/-- A mark placed on the board completes no line of the other mark. -/
theorem wins_of_wins_set (board : Board) (i : Fin 9) (m n : Mark) (hn : n ≠ m)
    (h : Wins (board.set i (some m)) n) : Wins board n := by
  obtain ⟨k, hk, p, hp, h1, h2, h3⟩ := h
  refine ⟨k, hk, p, hp, ?_, ?_, ?_⟩
  all_goals
    first
    | (rw [Board.get_set] at h1
       split_ifs at h1 with hc
       · exact absurd (Option.some.inj h1).symm hn
       · exact h1)
    | (rw [Board.get_set] at h2
       split_ifs at h2 with hc
       · exact absurd (Option.some.inj h2).symm hn
       · exact h2)
    | (rw [Board.get_set] at h3
       split_ifs at h3 with hc
       · exact absurd (Option.some.inj h3).symm hn
       · exact h3)

/-- On a board where not both players hold a line, and with fuel beyond the
number of empty cells, the score of the search is the minimax value of the
position. -/
theorem searchValue_eq (fuel : Nat) (board : Board) (isMaximizing : Bool)
    (hc : ¬ (Wins board Mark.X ∧ Wins board Mark.O))
    (hf : (emptyCells board).length < fuel) :
    searchValue fuel board isMaximizing = JSNum.fin (gameValueAt fuel board isMaximizing) := by
  induction fuel generalizing board isMaximizing with
  | zero => omega
  | succ fuel ih =>
    unfold searchValue gameValueAt
    cases hw : checkWinner board with
    | some r =>
      simp only
      rcases checkWinner_some board r hw with ⟨m, hm, hwin⟩ | ⟨hd, hx, ho, he⟩
      · cases m with
        | X =>
          have ho : ¬ Wins board Mark.O := fun ho => hc ⟨hwin, ho⟩
          rw [hm, if_neg ho, if_pos hwin]
          rfl
        | O =>
          rw [hm, if_pos hwin]
          rfl
      · rw [hd, if_neg ho, if_neg hx, if_pos ((emptyCells_eq_nil_iff board).mpr he)]
        rfl
    | none =>
      simp only
      obtain ⟨hl, he⟩ := (checkWinner_eq_none_iff board).mp hw
      obtain ⟨hx, ho⟩ := (no_line_iff board).mp hl
      have hne : emptyCells board ≠ [] := fun e => (emptyCells_eq_nil_iff board).mp e he
      rw [if_neg ho, if_neg hx, if_neg hne]
      have hchild : ∀ (m : Mark) (next : Bool) (i : Fin 9), board i = none →
          searchValue fuel (board.set i (some m)) next =
            JSNum.fin (gameValueAt fuel (board.set i (some m)) next) := by
        intro m next i hi
        apply ih
        · rintro ⟨h1, h2⟩
          cases m with
          | X => exact ho (wins_of_wins_set board i Mark.X Mark.O (by decide) h2)
          | O => exact hx (wins_of_wins_set board i Mark.O Mark.X (by decide) h1)
        · have := length_emptyCells_set_lt board i m hi
          omega
      cases isMaximizing with
      | true =>
        simp only [if_true]
        rw [foldEmpties_congr board JSNum.max _
          (fun i => JSNum.fin (gameValueAt fuel (board.set i (some Mark.O)) false)) _
          (hchild Mark.O false)]
        exact foldEmpties_max board _ hne
      | false =>
        simp only [Bool.false_eq_true, if_false]
        rw [foldEmpties_congr board JSNum.min _
          (fun i => JSNum.fin (gameValueAt fuel (board.set i (some Mark.X)) true)) _
          (hchild Mark.X true)]
        exact foldEmpties_min board _ hne

/-- The value of a position does not depend on the depth of the search, once
the depth exceeds the number of empty cells. -/
theorem gameValueAt_depth (d e : Nat) (board : Board) (oToMove : Bool)
    (hd : (emptyCells board).length < d) (he : (emptyCells board).length < e) :
    gameValueAt d board oToMove = gameValueAt e board oToMove := by
  induction d generalizing e board oToMove with
  | zero => omega
  | succ d ih =>
    cases e with
    | zero => omega
    | succ e =>
      unfold gameValueAt
      have hchild : ∀ (m : Mark) (next : Bool), ∀ i ∈ emptyCells board,
          gameValueAt d (board.set i (some m)) next = gameValueAt e (board.set i (some m)) next := by
        intro m next i hi
        have := length_emptyCells_set_lt board i m ((mem_emptyCells board i).mp hi)
        exact ih e _ next (by omega) (by omega)
      rw [List.map_congr_left (hchild Mark.O false), List.map_congr_left (hchild Mark.X true)]

/-- The value of a position, one move deep. -/
theorem gameValue_eq (board : Board) (oToMove : Bool) :
    gameValue board oToMove =
      if Wins board Mark.O then 1
      else if Wins board Mark.X then -1
      else if emptyCells board = [] then 0
      else if oToMove then
        listMax ((emptyCells board).map (fun i => gameValue (board.set i (some Mark.O)) false))
      else
        listMin ((emptyCells board).map (fun i => gameValue (board.set i (some Mark.X)) true)) := by
  unfold gameValue
  rw [gameValueAt]
  have hchild : ∀ (m : Mark) (next : Bool), ∀ i ∈ emptyCells board,
      gameValueAt (emptyCells board).length (board.set i (some m)) next =
        gameValueAt ((emptyCells (board.set i (some m))).length + 1) (board.set i (some m)) next := by
    intro m next i hi
    have := length_emptyCells_set_lt board i m ((mem_emptyCells board i).mp hi)
    exact gameValueAt_depth _ _ _ next (by omega) (by omega)
  rw [List.map_congr_left (hchild Mark.O false), List.map_congr_left (hchild Mark.X true)]

/-- On a board without a complete line, the score the search gives to an
empty cell is the value of the position after O is placed there. -/
theorem searchValue_cell (board : Board) (i : Fin 9) (hl : ∀ k, ¬ LineComplete board k) :
    searchValue minimaxFuel (board.set i (some Mark.O)) false =
      JSNum.fin (cellScore board i) := by
  obtain ⟨hx, -⟩ := (no_line_iff board).mp hl
  have hlen := length_emptyCells_le (board.set i (some Mark.O))
  rw [searchValue_eq minimaxFuel _ false
    (fun h => hx (wins_of_wins_set board i Mark.O Mark.X (by decide) h.1))
    (by unfold minimaxFuel; omega)]
  unfold cellScore gameValue
  rw [gameValueAt_depth minimaxFuel ((emptyCells (board.set i (some Mark.O))).length + 1) _ false
    (by unfold minimaxFuel; omega) (by omega)]

/-- The loop of `findBestMove` over integer scores ends on the first of the
empty cells whose score is the largest. -/
theorem bestOf_spec (board : Board) (g : Fin 9 → JSNum) (sc : Fin 9 → Int)
    (hg : ∀ i, board i = none → g i = JSNum.fin (sc i)) (he : HasEmpty board) :
    ∃ i, board i = none ∧ bestOf board g = (JSNum.fin (sc i), (i.val : Int)) ∧
      (∀ j, board j = none → sc j ≤ sc i) ∧
      (∀ j, board j = none → j < i → sc j < sc i) := by
  have key : ∀ (l seen : List (Fin 9)) (acc : JSNum × Int),
      ((acc = (JSNum.negInf, (-1 : Int)) ∧ ∀ j ∈ seen, board j ≠ none) ∨
        ∃ i ∈ seen, board i = none ∧ acc = (JSNum.fin (sc i), (i.val : Int)) ∧
          (∀ j ∈ seen, board j = none → sc j ≤ sc i) ∧
          (∀ j ∈ seen, board j = none → j < i → sc j < sc i)) →
      (∀ j ∈ seen, ∀ k ∈ l, j < k) → l.Pairwise (· < ·) →
      ((l.foldl
          (fun acc i =>
            if board i = none then
              if JSNum.gt (g i) acc.1 then (g i, (i.val : Int)) else acc
            else acc) acc = (JSNum.negInf, (-1 : Int)) ∧ ∀ j ∈ seen ++ l, board j ≠ none) ∨
        ∃ i ∈ seen ++ l, board i = none ∧
          l.foldl
            (fun acc i =>
              if board i = none then
                if JSNum.gt (g i) acc.1 then (g i, (i.val : Int)) else acc
              else acc) acc = (JSNum.fin (sc i), (i.val : Int)) ∧
          (∀ j ∈ seen ++ l, board j = none → sc j ≤ sc i) ∧
          (∀ j ∈ seen ++ l, board j = none → j < i → sc j < sc i)) := by
    intro l
    induction l with
    | nil =>
      intro seen acc hinv _ _
      simpa using hinv
    | cons x rest ih =>
      intro seen acc hinv hlt hpw
      rw [List.foldl_cons]
      have hassoc : seen ++ x :: rest = (seen ++ [x]) ++ rest := by simp
      rw [hassoc]
      apply ih
      · by_cases hx : board x = none
        · simp only [hx, if_true, hg x hx]
          rcases hinv with ⟨hacc, hfull⟩ | ⟨i, hi, hbi, hacc, hmax, hfirst⟩
          · right
            refine ⟨x, by simp, hx, ?_, ?_, ?_⟩
            · rw [hacc]
              rfl
            · intro j hj hbj
              rcases List.mem_append.mp hj with hj | hj
              · exact absurd hbj (hfull j hj)
              · rw [List.mem_singleton.mp hj]
            · intro j hj hbj hji
              rcases List.mem_append.mp hj with hj | hj
              · exact absurd hbj (hfull j hj)
              · rw [List.mem_singleton.mp hj] at hji
                exact absurd hji (lt_irrefl _)
          · rw [hacc]
            simp only [JSNum.gt]
            by_cases hlt2 : sc i < sc x
            · right
              simp only [hlt2, decide_True, if_true]
              refine ⟨x, by simp, hx, rfl, ?_, ?_⟩
              · intro j hj hbj
                rcases List.mem_append.mp hj with hj | hj
                · exact le_trans (hmax j hj hbj) (le_of_lt hlt2)
                · rw [List.mem_singleton.mp hj]
              · intro j hj hbj hji
                rcases List.mem_append.mp hj with hj | hj
                · exact lt_of_le_of_lt (hmax j hj hbj) hlt2
                · rw [List.mem_singleton.mp hj] at hji
                  exact absurd hji (lt_irrefl _)
            · right
              simp only [hlt2, decide_False, Bool.false_eq_true, if_false]
              refine ⟨i, by simp [hi], hbi, rfl, ?_, ?_⟩
              · intro j hj hbj
                rcases List.mem_append.mp hj with hj | hj
                · exact hmax j hj hbj
                · rw [List.mem_singleton.mp hj]
                  exact not_lt.mp hlt2
              · intro j hj hbj hji
                rcases List.mem_append.mp hj with hj | hj
                · exact hfirst j hj hbj hji
                · rw [List.mem_singleton.mp hj] at hji
                  exact absurd (hlt i hi x (List.mem_cons_self _ _)) (not_lt.mpr (le_of_lt hji))
        · simp only [hx, if_false]
          rcases hinv with ⟨hacc, hfull⟩ | ⟨i, hi, hbi, hacc, hmax, hfirst⟩
          · left
            refine ⟨hacc, ?_⟩
            intro j hj
            rcases List.mem_append.mp hj with hj | hj
            · exact hfull j hj
            · rw [List.mem_singleton.mp hj]
              exact hx
          · right
            refine ⟨i, by simp [hi], hbi, hacc, ?_, ?_⟩
            · intro j hj hbj
              rcases List.mem_append.mp hj with hj | hj
              · exact hmax j hj hbj
              · rw [List.mem_singleton.mp hj] at hbj
                exact absurd hbj hx
            · intro j hj hbj hji
              rcases List.mem_append.mp hj with hj | hj
              · exact hfirst j hj hbj hji
              · rw [List.mem_singleton.mp hj] at hbj
                exact absurd hbj hx
      · intro j hj k hk
        rcases List.mem_append.mp hj with hj | hj
        · exact hlt j hj k (List.mem_cons_of_mem _ hk)
        · rw [List.mem_singleton.mp hj]
          exact (List.pairwise_cons.mp hpw).1 k hk
      · exact (List.pairwise_cons.mp hpw).2
  have hfin := key cellIndices [] (JSNum.negInf, (-1 : Int))
    (Or.inl ⟨rfl, fun j hj => absurd hj (List.not_mem_nil j)⟩)
    (fun j hj => absurd hj (List.not_mem_nil j)) (by decide)
  rw [List.nil_append] at hfin
  obtain ⟨i0, hi0⟩ := he
  rcases hfin with ⟨-, hfull⟩ | ⟨i, -, hbi, hacc, hmax, hfirst⟩
  · exact absurd hi0 (hfull i0 (mem_cellIndices i0))
  · exact ⟨i, hbi, hacc, fun j hj => hmax j (mem_cellIndices j) hj,
      fun j hj hji => hfirst j (mem_cellIndices j) hj hji⟩

/-! ## Soundness of the bounded search -/

theorem board_eq_mk9 (b : Board) : ∃ c0 c1 c2 c3 c4 c5 c6 c7 c8, b = mk9 c0 c1 c2 c3 c4 c5 c6 c7 c8 := by
  obtain ⟨l, hl⟩ := b
  rcases l with _ | ⟨c0, l⟩; · simp at hl
  rcases l with _ | ⟨c1, l⟩; · simp at hl
  rcases l with _ | ⟨c2, l⟩; · simp at hl
  rcases l with _ | ⟨c3, l⟩; · simp at hl
  rcases l with _ | ⟨c4, l⟩; · simp at hl
  rcases l with _ | ⟨c5, l⟩; · simp at hl
  rcases l with _ | ⟨c6, l⟩; · simp at hl
  rcases l with _ | ⟨c7, l⟩; · simp at hl
  rcases l with _ | ⟨c8, l⟩; · simp at hl
  rcases l with _ | ⟨c9, l⟩
  · exact ⟨c0, c1, c2, c3, c4, c5, c6, c7, c8, rfl⟩
  · simp only [List.length_cons] at hl
    omega

theorem mk9_get (c0 c1 c2 c3 c4 c5 c6 c7 c8 : Cell) :
    (mk9 c0 c1 c2 c3 c4 c5 c6 c7 c8) 0 = c0 ∧ (mk9 c0 c1 c2 c3 c4 c5 c6 c7 c8) 1 = c1 ∧
    (mk9 c0 c1 c2 c3 c4 c5 c6 c7 c8) 2 = c2 ∧ (mk9 c0 c1 c2 c3 c4 c5 c6 c7 c8) 3 = c3 ∧
    (mk9 c0 c1 c2 c3 c4 c5 c6 c7 c8) 4 = c4 ∧ (mk9 c0 c1 c2 c3 c4 c5 c6 c7 c8) 5 = c5 ∧
    (mk9 c0 c1 c2 c3 c4 c5 c6 c7 c8) 6 = c6 ∧ (mk9 c0 c1 c2 c3 c4 c5 c6 c7 c8) 7 = c7 ∧
    (mk9 c0 c1 c2 c3 c4 c5 c6 c7 c8) 8 = c8 :=
  ⟨rfl, rfl, rfl, rfl, rfl, rfl, rfl, rfl, rfl⟩

theorem mk9_set (c0 c1 c2 c3 c4 c5 c6 c7 c8 v : Cell) :
    ((mk9 c0 c1 c2 c3 c4 c5 c6 c7 c8).set 0 v).cells = [v, c1, c2, c3, c4, c5, c6, c7, c8] ∧
    ((mk9 c0 c1 c2 c3 c4 c5 c6 c7 c8).set 1 v).cells = [c0, v, c2, c3, c4, c5, c6, c7, c8] ∧
    ((mk9 c0 c1 c2 c3 c4 c5 c6 c7 c8).set 2 v).cells = [c0, c1, v, c3, c4, c5, c6, c7, c8] ∧
    ((mk9 c0 c1 c2 c3 c4 c5 c6 c7 c8).set 3 v).cells = [c0, c1, c2, v, c4, c5, c6, c7, c8] ∧
    ((mk9 c0 c1 c2 c3 c4 c5 c6 c7 c8).set 4 v).cells = [c0, c1, c2, c3, v, c5, c6, c7, c8] ∧
    ((mk9 c0 c1 c2 c3 c4 c5 c6 c7 c8).set 5 v).cells = [c0, c1, c2, c3, c4, v, c6, c7, c8] ∧
    ((mk9 c0 c1 c2 c3 c4 c5 c6 c7 c8).set 6 v).cells = [c0, c1, c2, c3, c4, c5, v, c7, c8] ∧
    ((mk9 c0 c1 c2 c3 c4 c5 c6 c7 c8).set 7 v).cells = [c0, c1, c2, c3, c4, c5, c6, v, c8] ∧
    ((mk9 c0 c1 c2 c3 c4 c5 c6 c7 c8).set 8 v).cells = [c0, c1, c2, c3, c4, c5, c6, c7, v] :=
  ⟨rfl, rfl, rfl, rfl, rfl, rfl, rfl, rfl, rfl⟩

theorem exists_fin9 (P : Fin 9 → Prop) :
    (∃ i, P i) ↔ P 0 ∨ P 1 ∨ P 2 ∨ P 3 ∨ P 4 ∨ P 5 ∨ P 6 ∨ P 7 ∨ P 8 := by
  constructor
  · rintro ⟨i, hi⟩
    fin_cases i
    · exact Or.inl hi
    · exact Or.inr (Or.inl hi)
    · exact Or.inr (Or.inr (Or.inl hi))
    · exact Or.inr (Or.inr (Or.inr (Or.inl hi)))
    · exact Or.inr (Or.inr (Or.inr (Or.inr (Or.inl hi))))
    · exact Or.inr (Or.inr (Or.inr (Or.inr (Or.inr (Or.inl hi)))))
    · exact Or.inr (Or.inr (Or.inr (Or.inr (Or.inr (Or.inr (Or.inl hi))))))
    · exact Or.inr (Or.inr (Or.inr (Or.inr (Or.inr (Or.inr (Or.inr (Or.inl hi)))))))
    · exact Or.inr (Or.inr (Or.inr (Or.inr (Or.inr (Or.inr (Or.inr (Or.inr hi)))))))
  · rintro (h | h | h | h | h | h | h | h | h) <;> exact ⟨_, h⟩

theorem cellIs_iff (m : Mark) (c : Cell) : cellIs m c = true ↔ c = some m := by
  cases c with
  | none => simp [cellIs]
  | some n => cases m <;> cases n <;> simp [cellIs]

theorem wins_iff_lines (board : Board) (m : Mark) :
    Wins board m ↔
      LineHeld board (0, 1, 2) m ∨ LineHeld board (3, 4, 5) m ∨ LineHeld board (6, 7, 8) m ∨
      LineHeld board (0, 3, 6) m ∨ LineHeld board (1, 4, 7) m ∨ LineHeld board (2, 5, 8) m ∨
      LineHeld board (0, 4, 8) m ∨ LineHeld board (2, 4, 6) m := by
  constructor
  · rintro ⟨k, hk, p, hp, hm⟩
    interval_cases k <;> simp only [winPatterns, List.get?_cons_succ, List.get?_cons_zero,
      Option.some.injEq] at hp <;> subst hp <;> simp [hm]
  · rintro (h | h | h | h | h | h | h | h)
    · exact ⟨0, by decide, _, rfl, h⟩
    · exact ⟨1, by decide, _, rfl, h⟩
    · exact ⟨2, by decide, _, rfl, h⟩
    · exact ⟨3, by decide, _, rfl, h⟩
    · exact ⟨4, by decide, _, rfl, h⟩
    · exact ⟨5, by decide, _, rfl, h⟩
    · exact ⟨6, by decide, _, rfl, h⟩
    · exact ⟨7, by decide, _, rfl, h⟩

theorem wonBy_iff (board : Board) (m : Mark) : wonBy m board.cells = true ↔ Wins board m := by
  obtain ⟨c0, c1, c2, c3, c4, c5, c6, c7, c8, rfl⟩ := board_eq_mk9 board
  obtain ⟨g0, g1, g2, g3, g4, g5, g6, g7, g8⟩ := mk9_get c0 c1 c2 c3 c4 c5 c6 c7 c8
  have hc : (mk9 c0 c1 c2 c3 c4 c5 c6 c7 c8).cells = [c0, c1, c2, c3, c4, c5, c6, c7, c8] := rfl
  rw [wins_iff_lines, hc]
  simp only [LineHeld, g0, g1, g2, g3, g4, g5, g6, g7, g8, wonBy, Bool.or_eq_true,
    Bool.and_eq_true, cellIs_iff, or_assoc, and_assoc]

theorem mem_vacant (c : Cell) (l x : List Cell) : x ∈ vacant c l ↔ c = none ∧ x = l := by
  cases c <;> simp [vacant]

/-- The successors of a position are the boards with one more mark. -/
theorem mem_successors (board : Board) (m : Mark) (x : List Cell) :
    x ∈ successors m board.cells ↔ ∃ i, board i = none ∧ x = (board.set i (some m)).cells := by
  obtain ⟨c0, c1, c2, c3, c4, c5, c6, c7, c8, rfl⟩ := board_eq_mk9 board
  obtain ⟨g0, g1, g2, g3, g4, g5, g6, g7, g8⟩ := mk9_get c0 c1 c2 c3 c4 c5 c6 c7 c8
  obtain ⟨s0, s1, s2, s3, s4, s5, s6, s7, s8⟩ := mk9_set c0 c1 c2 c3 c4 c5 c6 c7 c8 (some m)
  have hc : (mk9 c0 c1 c2 c3 c4 c5 c6 c7 c8).cells = [c0, c1, c2, c3, c4, c5, c6, c7, c8] := rfl
  rw [exists_fin9, hc]
  simp only [g0, g1, g2, g3, g4, g5, g6, g7, g8, s0, s1, s2, s3, s4, s5, s6, s7, s8]
  simp only [successors, List.mem_append, mem_vacant]

theorem le_listMax (l : List Int) (x : Int) (h : x ∈ l) : x ≤ listMax l := by
  induction l with
  | nil => cases h
  | cons a rest ih =>
    cases rest with
    | nil =>
      rw [List.mem_singleton.mp h]
      exact le_refl _
    | cons b r =>
      rw [listMax_cons_cons]
      rcases List.mem_cons.mp h with rfl | h2
      · exact le_max_left _ _
      · exact le_trans (ih h2) (le_max_right _ _)

theorem listMin_le (l : List Int) (x : Int) (h : x ∈ l) : listMin l ≤ x := by
  induction l with
  | nil => cases h
  | cons a rest ih =>
    cases rest with
    | nil =>
      rw [List.mem_singleton.mp h]
      exact le_refl _
    | cons b r =>
      rw [listMin_cons_cons]
      rcases List.mem_cons.mp h with rfl | h2
      · exact min_le_left _ _
      · exact le_trans (min_le_right _ _) (ih h2)

theorem listMax_le (l : List Int) (t : Int) (hne : l ≠ []) (h : ∀ x ∈ l, x ≤ t) :
    listMax l ≤ t := by
  induction l with
  | nil => exact absurd rfl hne
  | cons a rest ih =>
    cases rest with
    | nil => exact h a (List.mem_singleton.mpr rfl)
    | cons b r =>
      rw [listMax_cons_cons]
      exact max_le (h a (List.mem_cons_self _ _))
        (ih (List.cons_ne_nil _ _) (fun x hx => h x (List.mem_cons_of_mem _ hx)))

theorem le_listMin (l : List Int) (t : Int) (hne : l ≠ []) (h : ∀ x ∈ l, t ≤ x) :
    t ≤ listMin l := by
  induction l with
  | nil => exact absurd rfl hne
  | cons a rest ih =>
    cases rest with
    | nil => exact h a (List.mem_singleton.mpr rfl)
    | cons b r =>
      rw [listMin_cons_cons]
      exact le_min (h a (List.mem_cons_self _ _))
        (ih (List.cons_ne_nil _ _) (fun x hx => h x (List.mem_cons_of_mem _ hx)))

theorem successors_eq_nil_iff (board : Board) (m : Mark) :
    successors m board.cells = [] ↔ emptyCells board = [] := by
  rw [emptyCells_eq_nil_iff, List.eq_nil_iff_forall_not_mem]
  constructor
  · rintro h ⟨i, hi⟩
    exact h _ ((mem_successors board m _).mpr ⟨i, hi, rfl⟩)
  · intro h x hx
    obtain ⟨i, hi, -⟩ := (mem_successors board m x).mp hx
    exact h ⟨i, hi⟩

/-- When the bounded search answers `true`, the value of the position is at
least `t`. -/
theorem atLeast_sound (d : Nat) (t : Int) (board : Board) (oToMove : Bool)
    (h : atLeast d t board.cells oToMove = true) : t ≤ gameValueAt d board oToMove := by
  induction d generalizing board oToMove with
  | zero => simp [atLeast] at h
  | succ d ih =>
    unfold atLeast at h
    unfold gameValueAt
    by_cases ho : Wins board Mark.O
    · rw [if_pos ((wonBy_iff board Mark.O).mpr ho)] at h
      rw [if_pos ho]
      exact of_decide_eq_true h
    · rw [if_neg (fun e => ho ((wonBy_iff board Mark.O).mp e))] at h
      rw [if_neg ho]
      by_cases hx : Wins board Mark.X
      · rw [if_pos ((wonBy_iff board Mark.X).mpr hx)] at h
        rw [if_pos hx]
        exact of_decide_eq_true h
      · rw [if_neg (fun e => hx ((wonBy_iff board Mark.X).mp e))] at h
        rw [if_neg hx]
        cases oToMove with
        | true =>
          simp only [if_true] at h ⊢
          by_cases he : emptyCells board = []
          · rw [if_pos he]
            rw [(successors_eq_nil_iff board Mark.O).mpr he] at h
            exact of_decide_eq_true h
          · rw [if_neg he]
            have hany : (successors Mark.O board.cells).any (fun c => atLeast d t c false) = true := by
              revert h
              cases hsu : successors Mark.O board.cells with
              | nil => exact absurd ((successors_eq_nil_iff board Mark.O).mp hsu) he
              | cons y ys => exact fun h => h
            obtain ⟨c, hc, hcv⟩ := List.any_eq_true.mp hany
            obtain ⟨i, hi, rfl⟩ := (mem_successors board Mark.O c).mp hc
            exact le_trans (ih _ false hcv)
              (le_listMax _ _ (List.mem_map.mpr ⟨i, (mem_emptyCells board i).mpr hi, rfl⟩))
        | false =>
          simp only [Bool.false_eq_true, if_false] at h ⊢
          by_cases he : emptyCells board = []
          · rw [if_pos he]
            rw [(successors_eq_nil_iff board Mark.X).mpr he] at h
            exact of_decide_eq_true h
          · rw [if_neg he]
            have hall : (successors Mark.X board.cells).all (fun c => atLeast d t c true) = true := by
              revert h
              cases hsu : successors Mark.X board.cells with
              | nil => exact absurd ((successors_eq_nil_iff board Mark.X).mp hsu) he
              | cons y ys => exact fun h => h
            apply le_listMin _ _ (by simpa using he)
            intro v hv
            obtain ⟨i, hi, rfl⟩ := List.mem_map.mp hv
            have hib := (mem_emptyCells board i).mp hi
            exact ih _ true (List.all_eq_true.mp hall _
              ((mem_successors board Mark.X _).mpr ⟨i, hib, rfl⟩))

/-! ## The search never loses -/

theorem resetGame_initial : resetGame initial = initial := rfl

set_option maxRecDepth 1000000 in
theorem atLeast_emptyBoard : atLeast 10 0 emptyBoard.cells false = true := by
  decide!

/-- With X to move on the empty board, the game is worth at least a draw to O. -/
theorem gameValue_emptyBoard : 0 ≤ gameValue emptyBoard false :=
  atLeast_sound 10 0 emptyBoard false atLeast_emptyBoard

theorem cellAt_val (i : Fin 9) : cellAt (i.val : Int) = some i := by
  revert i
  decide

/-- On a board where no result is due, `makeAIMove` is the call of `makeMove`
on an empty cell whose score is the largest. -/
theorem makeAIMove_open (s : Game) (h : checkWinner s.board = none) :
    ∃ i, s.board i = none ∧ (∀ j, s.board j = none → cellScore s.board j ≤ cellScore s.board i) ∧
      makeAIMove s = some (makeMove s i) := by
  obtain ⟨hl, he⟩ := (checkWinner_eq_none_iff s.board).mp h
  obtain ⟨i, hbi, hbest, hmax, -⟩ :=
    bestOf_spec s.board (fun i => searchValue minimaxFuel (s.board.set i (some Mark.O)) false)
      (cellScore s.board) (fun i _ => searchValue_cell s.board i hl) he
  refine ⟨i, hbi, hmax, ?_⟩
  unfold makeAIMove
  rw [findBestMove_eq, hbest]
  simp only [cellAt_val]
  have : ((i.val : Int) ≠ -1) := by omega
  rw [if_pos this]

theorem safe_step (s : Game) (i : Fin 9) (hs : Synced s) (ha : Accepted s i)
    (hx : ¬ Wins (s.board.set i (some s.currentPlayer)) Mark.X)
    (hv : 0 ≤ gameValue (s.board.set i (some s.currentPlayer))
      (decide (s.currentPlayer.other = Mark.O))) :
    Safe (makeMove s i) := by
  obtain ⟨h1, h2, h3, -, -, -⟩ := makeMove_accepted s i ha
  refine ⟨synced_makeMove s i hs, by rw [h1]; exact hx, ?_⟩
  intro hg
  rw [h2] at hg
  rw [h1, h3]
  cases hw : checkWinner (s.board.set i (some s.currentPlayer)) with
  | some r => rw [hw] at hg; cases hg
  | none =>
    simp only [Option.isSome_none, Bool.false_eq_true, if_false, true_and]
    exact hv

theorem safe_human (s : Game) (i : Fin 9) (h : Safe s) (hp : s.currentPlayer = Mark.X) :
    Safe (makeMove s i) := by
  by_cases ha : Accepted s i
  · obtain ⟨hs, -, hopen⟩ := h
    obtain ⟨hg, hbi⟩ := (accepted_iff_of_synced s i hs).mp ha
    obtain ⟨hw, hv⟩ := hopen hg
    obtain ⟨hl, he⟩ := (checkWinner_eq_none_iff s.board).mp hw
    obtain ⟨hnx, hno⟩ := (no_line_iff s.board).mp hl
    have hne : emptyCells s.board ≠ [] := fun e => (emptyCells_eq_nil_iff s.board).mp e he
    rw [hp] at hv
    rw [gameValue_eq, if_neg hno, if_neg hnx, if_neg hne] at hv
    simp only [reduceCtorEq, decide_False, Bool.false_eq_true, if_false] at hv
    have hchild : 0 ≤ gameValue (s.board.set i (some Mark.X)) true :=
      le_trans hv (listMin_le _ _
        (List.mem_map.mpr ⟨i, (mem_emptyCells s.board i).mpr hbi, rfl⟩))
    have hno2 : ¬ Wins (s.board.set i (some Mark.X)) Mark.O :=
      fun e => hno (wins_of_wins_set s.board i Mark.X Mark.O (by decide) e)
    apply safe_step s i hs ha
    · rw [hp]
      intro hxw
      rw [gameValue_eq, if_neg hno2, if_pos hxw] at hchild
      omega
    · rw [hp]
      exact hchild
  · rw [makeMove_of_not_accepted s i ha]
    exact h

theorem safe_reply (s t : Game) (h : Safe s) (hp : s.currentPlayer = Mark.O)
    (ht : makeAIMove s = some t) : Safe t := by
  by_cases hg : s.gameOver = false
  · obtain ⟨hs, -, hopen⟩ := h
    obtain ⟨hw, hv⟩ := hopen hg
    obtain ⟨hl, he⟩ := (checkWinner_eq_none_iff s.board).mp hw
    obtain ⟨hnx, hno⟩ := (no_line_iff s.board).mp hl
    have hne : emptyCells s.board ≠ [] := fun e => (emptyCells_eq_nil_iff s.board).mp e he
    obtain ⟨i, hbi, hmax, hai⟩ := makeAIMove_open s hw
    rw [hai] at ht
    cases ht
    rw [hp] at hv
    rw [gameValue_eq, if_neg hno, if_neg hnx, if_neg hne] at hv
    simp only [decide_True, if_true] at hv
    have hchild : 0 ≤ gameValue (s.board.set i (some Mark.O)) false := by
      apply le_trans hv
      apply listMax_le _ _ (by simpa using hne)
      intro x hx
      obtain ⟨j, hj, rfl⟩ := List.mem_map.mp hx
      exact hmax j ((mem_emptyCells s.board j).mp hj)
    apply safe_step s i hs ((accepted_iff_of_synced s i hs).mpr ⟨hg, hbi⟩)
    · rw [hp]
      exact fun e => hnx (wins_of_wins_set s.board i Mark.O Mark.X (by decide) e)
    · rw [hp]
      exact hchild
  · have hna : ∀ i, ¬ Accepted s i := fun i ha => hg ha.1
    rcases makeAIMove_cases s with h1 | ⟨i, h1⟩
    · rw [h1] at ht
      cases ht
      exact h
    · rw [h1, makeMove_of_not_accepted s i (hna i)] at ht
      cases ht
      exact h

theorem safe_resetGame (s : Game) : Safe (resetGame s) := by
  refine ⟨synced_resetGame s, ?_, ?_⟩
  · show ¬ Wins emptyBoard Mark.X
    decide
  · intro _
    constructor
    · show checkWinner emptyBoard = none
      decide
    · exact gameValue_emptyBoard

theorem safe_of_aiPlay (s : Game) (h : AIPlay s) : Safe s := by
  induction h with
  | start s => exact safe_resetGame s
  | human s i _ hp ih => exact safe_human s i ih hp
  | reply s t _ hp ht ih => exact safe_reply s t ih hp ht

/-! ## Properties of the moves -/

/-- C5: in every state reachable from the constructor's state through
`makeMove`, `makeAIMove` and `resetGame` (and `setGameMode`), `makeMove` on a
cell whose board entry is occupied leaves the board, `currentPlayer` and
`gameOver` unchanged, whether or not the game is over. -/
theorem makeMove_occupied_noop (s : Game) (i : Fin 9) (hr : Reachable s)
    (ho : s.board i ≠ none) :
    (makeMove s i).board = s.board ∧ (makeMove s i).currentPlayer = s.currentPlayer ∧
      (makeMove s i).gameOver = s.gameOver := by
  have hs := synced_of_reachable s hr
  have : ¬ Accepted s i := fun ha => ho ((accepted_iff_of_synced s i hs).mp ha).2
  rw [makeMove_of_not_accepted s i this]
  exact ⟨rfl, rfl, rfl⟩

/-- An instance of C5: the state after a click on cell 0, and a second click
on cell 0. -/
theorem makeMove_occupied_noop_witness :
    (makeMove (makeMove initial 0) 0).board = (makeMove initial 0).board ∧
      (makeMove (makeMove initial 0) 0).currentPlayer = (makeMove initial 0).currentPlayer ∧
      (makeMove (makeMove initial 0) 0).gameOver = (makeMove initial 0).gameOver :=
  makeMove_occupied_noop (makeMove initial 0) 0 (Reachable.move _ _ Reachable.init) (by decide)

/-- C6: once `gameOver` is true, `makeMove` on any cell and `makeAIMove` leave
the state as it is (board, `currentPlayer` and `gameOver` included), so that
`gameOver` stays true under both; `resetGame` sets it back to false. -/
theorem gameOver_frozen (s : Game) (h : s.gameOver = true) :
    (∀ i, makeMove s i = s) ∧ makeAIMove s = some s ∧ (resetGame s).gameOver = false := by
  have hm : ∀ i, makeMove s i = s := fun i =>
    makeMove_of_not_accepted s i (fun ha => by rw [ha.1] at h; cases h)
  refine ⟨hm, ?_, rfl⟩
  rcases makeAIMove_cases s with h1 | ⟨i, h1⟩
  · exact h1
  · rw [h1, hm i]

/-- An instance of C6: the state after X has won the top row (clicks on the
cells 0, 3, 1, 4, 2). -/
theorem gameOver_frozen_witness :
    (∀ i, makeMove (playMoves initial [0, 3, 1, 4, 2]) i = playMoves initial [0, 3, 1, 4, 2]) ∧
      makeAIMove (playMoves initial [0, 3, 1, 4, 2]) = some (playMoves initial [0, 3, 1, 4, 2]) ∧
      (resetGame (playMoves initial [0, 3, 1, 4, 2])).gameOver = false :=
  gameOver_frozen (playMoves initial [0, 3, 1, 4, 2]) (by decide)

/-- An accepted move that fills the last empty cell without completing a line
ends the game in the branch of a win: the status names the player who moved as
the winner and `highlightWinningCells` raises its `TypeError`. -/
theorem makeMove_last_cell (s : Game) (i : Fin 9) (h : Accepted s i)
    (hfull : ∀ j, (s.board.set i (some s.currentPlayer)) j ≠ none)
    (hno : ∀ k, ¬ LineComplete (s.board.set i (some s.currentPlayer)) k) :
    (makeMove s i).gameOver = true ∧ (makeMove s i).status = Status.wins s.currentPlayer ∧
      makeMoveThrows s i = true := by
  have hw : checkWinner (s.board.set i (some s.currentPlayer)) =
      some { winner := Winner.draw, pattern := none } := by
    unfold checkWinner
    rw [(scan_winPatterns_none _).mpr hno]
    simp [(boardFull_iff _).mpr hfull]
  obtain ⟨-, h2, -, h4, -, -⟩ := makeMove_accepted s i h
  rw [h2, h4, hw]
  exact ⟨rfl, rfl, (makeMove_throws_iff s i h).mpr hw⟩

/-- C7 (the code at the failing input): after the clicks 0, 1, 2, 4, 3, 5, 7, 6
the click on cell 8 is accepted and fills the board `X O X / X O O / O X X`, on
which `checkWinner` returns the draw result; `makeMove` sets `gameOver`, but
the status it shows is the win of X, not the draw message, and the call ends
in the `TypeError` of `highlightWinningCells`. -/
theorem makeMove_draw_shows_win :
    Accepted (playMoves initial [0, 1, 2, 4, 3, 5, 7, 6]) 8 ∧
      checkWinner (makeMove (playMoves initial [0, 1, 2, 4, 3, 5, 7, 6]) 8).board =
        some { winner := Winner.draw, pattern := none } ∧
      (makeMove (playMoves initial [0, 1, 2, 4, 3, 5, 7, 6]) 8).gameOver = true ∧
      (makeMove (playMoves initial [0, 1, 2, 4, 3, 5, 7, 6]) 8).status = Status.wins Mark.X ∧
      (makeMove (playMoves initial [0, 1, 2, 4, 3, 5, 7, 6]) 8).status ≠ Status.draw ∧
      makeMoveThrows (playMoves initial [0, 1, 2, 4, 3, 5, 7, 6]) 8 = true := by
  decide

/-- C8: in a state whose game is not over and whose page mirrors the board
(as it does in every reachable state, `synced_of_reachable`), `makeMove` on an
empty cell `i` writes the player who was `currentPlayer` before the call at
index `i` of the board and leaves every other cell of the board as it was. -/
theorem makeMove_writes_cell (s : Game) (i : Fin 9) (hs : Synced s)
    (hg : s.gameOver = false) (he : s.board i = none) :
    (makeMove s i).board i = some s.currentPlayer ∧
      ∀ j, j ≠ i → (makeMove s i).board j = s.board j := by
  have ha : Accepted s i := (accepted_iff_of_synced s i hs).mpr ⟨hg, he⟩
  rw [(makeMove_accepted s i ha).1]
  constructor
  · rw [Board.get_set, if_pos rfl]
  · intro j hj
    rw [Board.get_set, if_neg hj]

/-- An instance of C8: the state after a click on cell 0, and a click on
cell 4. -/
theorem makeMove_writes_cell_witness :
    (makeMove (makeMove initial 0) 4).board 4 = some (makeMove initial 0).currentPlayer ∧
      ∀ j, j ≠ 4 → (makeMove (makeMove initial 0) 4).board j = (makeMove initial 0).board j :=
  makeMove_writes_cell (makeMove initial 0) 4
    (synced_makeMove initial 0 synced_initial) (by decide) (by decide)

/-- C9: after an accepted move, `currentPlayer` is the other player exactly
when the resulting board has no complete line and still has an empty cell;
and when the resulting board has a complete line, `gameOver` is true and
`currentPlayer` is still the player who moved. -/
theorem makeMove_turn (s : Game) (i : Fin 9) (h : Accepted s i) :
    ((makeMove s i).currentPlayer = s.currentPlayer.other ↔
        (∀ k, ¬ LineComplete (makeMove s i).board k) ∧ HasEmpty (makeMove s i).board) ∧
      ((∃ k, LineComplete (makeMove s i).board k) →
        (makeMove s i).gameOver = true ∧ (makeMove s i).currentPlayer = s.currentPlayer) := by
  obtain ⟨h1, h2, h3, -, -, -⟩ := makeMove_accepted s i h
  rw [h1, h2, h3, ← checkWinner_eq_none_iff]
  have hne : s.currentPlayer ≠ s.currentPlayer.other := by
    cases s.currentPlayer <;> simp [Mark.other]
  cases hw : checkWinner (s.board.set i (some s.currentPlayer)) with
  | none =>
    simp only [Option.isSome_none, Bool.false_eq_true, if_false, true_iff, and_self, true_and]
    rintro ⟨k, hk⟩
    exact absurd hk (((checkWinner_eq_none_iff _).mp hw).1 k)
  | some r =>
    simp only [Option.isSome_some, if_true, reduceCtorEq, iff_false]
    exact ⟨hne, fun _ => ⟨trivial, trivial⟩⟩

/-- An instance of C9: the constructor's state and a click on cell 4. -/
theorem makeMove_turn_witness :
    ((makeMove initial 4).currentPlayer = initial.currentPlayer.other ↔
        (∀ k, ¬ LineComplete (makeMove initial 4).board k) ∧ HasEmpty (makeMove initial 4).board) ∧
      ((∃ k, LineComplete (makeMove initial 4).board k) →
        (makeMove initial 4).gameOver = true ∧
          (makeMove initial 4).currentPlayer = initial.currentPlayer) :=
  makeMove_turn initial 4 (by decide)

/-- C10: `findBestMove` returns, and the state it leaves has the board
cell for cell as on entry and `currentPlayer` and `gameOver` unchanged: no
mark of the simulation stays in the live state. -/
theorem findBestMove_restores (s : Game) :
    ∃ bestMove t, findBestMove s = some (bestMove, t) ∧ (∀ i, t.board i = s.board i) ∧
      t.currentPlayer = s.currentPlayer ∧ t.gameOver = s.gameOver :=
  ⟨_, s, findBestMove_eq s, fun _ => rfl, rfl, rfl⟩

/-- C3: on a position with at least one empty cell and no complete line,
`findBestMove` returns the lowest-index empty cell among those whose score is
the largest, the score of a cell being the exhaustive minimax value of the
position after O is placed there, with X to move. -/
theorem findBestMove_first_best (s : Game) (he : HasEmpty s.board)
    (hl : ∀ k, ¬ LineComplete s.board k) :
    ∃ i t, findBestMove s = some ((i.val : Int), t) ∧ s.board i = none ∧
      (∀ j, s.board j = none → cellScore s.board j ≤ cellScore s.board i) ∧
      (∀ j, s.board j = none → j < i → cellScore s.board j < cellScore s.board i) := by
  obtain ⟨i, hbi, hbest, hmax, hfirst⟩ :=
    bestOf_spec s.board (fun i => searchValue minimaxFuel (s.board.set i (some Mark.O)) false)
      (cellScore s.board) (fun i _ => searchValue_cell s.board i hl) he
  refine ⟨i, s, ?_, hbi, hmax, hfirst⟩
  rw [findBestMove_eq, hbest]

/-- An instance of C3: the constructor's state. -/
theorem findBestMove_first_best_witness :
    ∃ i t, findBestMove initial = some ((i.val : Int), t) ∧ initial.board i = none ∧
      (∀ j, initial.board j = none → cellScore initial.board j ≤ cellScore initial.board i) ∧
      (∀ j, initial.board j = none → j < i →
        cellScore initial.board j < cellScore initial.board i) :=
  findBestMove_first_best initial ⟨0, by decide⟩
    ((no_line_iff initial.board).mpr ⟨by decide, by decide⟩)

/-- C4: in every game that starts on a fresh board with X to move, where X
moves by `makeMove` on any cell and O replies by `makeAIMove`, no state is
reached on whose board `checkWinner` reports X as the winner; and
`makeAIMove` returns in every such state. -/
theorem ai_never_loses (s : Game) (h : AIPlay s) :
    (∀ r, checkWinner s.board = some r → r.winner ≠ Winner.X) ∧
      ∃ t, makeAIMove s = some t := by
  obtain ⟨-, hx, -⟩ := safe_of_aiPlay s h
  constructor
  · intro r hr hwx
    rcases checkWinner_some s.board r hr with ⟨m, hm, hwin⟩ | ⟨hd, -⟩
    · cases m with
      | X => exact hx hwin
      | O => rw [hm] at hwx; cases hwx
    · rw [hd] at hwx
      cases hwx
  · rcases makeAIMove_cases s with h1 | ⟨i, h1⟩
    · exact ⟨_, h1⟩
    · exact ⟨_, h1⟩

/-- An instance of C4: the state after X has opened in the centre of a fresh
board. -/
theorem ai_never_loses_witness :
    (∀ r, checkWinner (makeMove (resetGame initial) 4).board = some r → r.winner ≠ Winner.X) ∧
      ∃ t, makeAIMove (makeMove (resetGame initial) 4) = some t :=
  ai_never_loses (makeMove (resetGame initial) 4)
    (AIPlay.human (resetGame initial) 4 (AIPlay.start initial) rfl)

/-! ## The move returned by the search -/

/-- With fuel beyond the number of empty cells the score of the search is a
finite number, on every board. -/
theorem searchValue_fin (fuel : Nat) (board : Board) (isMaximizing : Bool)
    (hf : (emptyCells board).length < fuel) :
    searchValue fuel board isMaximizing =
      JSNum.fin (searchValue fuel board isMaximizing).toInt := by
  induction fuel generalizing board isMaximizing with
  | zero => omega
  | succ fuel ih =>
    unfold searchValue
    cases hw : checkWinner board with
    | some r =>
      simp only
      cases r.winner <;> rfl
    | none =>
      simp only
      obtain ⟨-, he⟩ := (checkWinner_eq_none_iff board).mp hw
      have hne : emptyCells board ≠ [] := fun e => (emptyCells_eq_nil_iff board).mp e he
      have hchild : ∀ (m : Mark) (next : Bool) (i : Fin 9), board i = none →
          searchValue fuel (board.set i (some m)) next =
            JSNum.fin (searchValue fuel (board.set i (some m)) next).toInt := by
        intro m next i hi
        apply ih
        have := length_emptyCells_set_lt board i m hi
        omega
      cases isMaximizing with
      | true =>
        simp only [if_true]
        rw [foldEmpties_congr board JSNum.max _
          (fun i => JSNum.fin (searchValue fuel (board.set i (some Mark.O)) false).toInt) _
          (hchild Mark.O false), foldEmpties_max board _ hne]
        rfl
      | false =>
        simp only [Bool.false_eq_true, if_false]
        rw [foldEmpties_congr board JSNum.min _
          (fun i => JSNum.fin (searchValue fuel (board.set i (some Mark.X)) true).toInt) _
          (hchild Mark.X true), foldEmpties_min board _ hne]
        rfl

/-- On a board without an empty cell the loop of `findBestMove` tries no cell
and ends on its initial pair. -/
theorem bestOf_full (board : Board) (g : Fin 9 → JSNum) (h : ∀ i, board i ≠ none) :
    bestOf board g = (JSNum.negInf, (-1 : Int)) := by
  unfold bestOf
  generalize cellIndices = l
  induction l with
  | nil => rfl
  | cons x rest ih =>
    rw [List.foldl_cons, if_neg (h x)]
    exact ih

/-- C11: on every board `findBestMove` returns the sentinel `-1` exactly when
the board has no empty cell, and otherwise an index between 0 and 8 whose cell
is empty. -/
theorem findBestMove_sentinel (s : Game) :
    ∃ bestMove, findBestMove s = some (bestMove, s) ∧
      (bestMove = -1 ↔ ¬ HasEmpty s.board) ∧
      (HasEmpty s.board → ∃ i : Fin 9, bestMove = (i.val : Int) ∧ s.board i = none) := by
  refine ⟨_, findBestMove_eq s, ?_⟩
  by_cases he : HasEmpty s.board
  · have hg : ∀ i, s.board i = none →
        searchValue minimaxFuel (s.board.set i (some Mark.O)) false =
          JSNum.fin (searchValue minimaxFuel (s.board.set i (some Mark.O)) false).toInt := by
      intro i _
      apply searchValue_fin
      have := length_emptyCells_le (s.board.set i (some Mark.O))
      unfold minimaxFuel
      omega
    obtain ⟨i, hbi, hbest, -, -⟩ := bestOf_spec s.board _ _ hg he
    rw [hbest]
    simp only
    refine ⟨⟨fun h => ?_, fun h => absurd he h⟩, fun _ => ⟨i, rfl, hbi⟩⟩
    omega
  · have hfull : ∀ i, s.board i ≠ none := fun i hi => he ⟨i, hi⟩
    rw [bestOf_full s.board _ hfull]
    simp only
    exact ⟨⟨fun _ => he, fun _ => trivial⟩, fun h => absurd h he⟩

/-! ## Reset and the end of the game -/

/-- C12: from every state `resetGame` yields a board of nine empty cells,
`currentPlayer` X and `gameOver` false, which are the board, player and flag
the constructor sets up. -/
theorem resetGame_fresh (s : Game) :
    (∀ i, (resetGame s).board i = none) ∧ (resetGame s).currentPlayer = Mark.X ∧
      (resetGame s).gameOver = false ∧ (resetGame s).board = initial.board ∧
      (resetGame s).currentPlayer = initial.currentPlayer ∧
      (resetGame s).gameOver = initial.gameOver :=
  ⟨fun i => emptyBoard_get i, rfl, rfl, rfl, rfl, rfl⟩

theorem over_makeMove (s : Game) (i : Fin 9)
    (h : s.gameOver = (checkWinner s.board).isSome) :
    (makeMove s i).gameOver = (checkWinner (makeMove s i).board).isSome := by
  by_cases ha : Accepted s i
  · obtain ⟨h1, h2, -, -, -, -⟩ := makeMove_accepted s i ha
    rw [h1, h2]
  · rw [makeMove_of_not_accepted s i ha]
    exact h

theorem over_of_reachable (s : Game) (h : Reachable s) :
    s.gameOver = (checkWinner s.board).isSome := by
  induction h with
  | init => decide
  | move s i _ ih => exact over_makeMove s i ih
  | ai s t _ ht ih =>
    rcases makeAIMove_cases s with h1 | ⟨i, h1⟩
    · rw [h1] at ht
      cases ht
      exact ih
    · rw [h1] at ht
      cases ht
      exact over_makeMove s i ih
  | reset s _ _ =>
    show false = (checkWinner emptyBoard).isSome
    decide
  | mode s v _ _ =>
    show false = (checkWinner emptyBoard).isSome
    decide

/-- C18: in every state reachable from the constructor's state through
`makeMove`, `makeAIMove` and `resetGame` (and `setGameMode`), `gameOver` is
true exactly when `checkWinner` returns a result on the current board, and
false exactly when it returns `null`. -/
theorem gameOver_iff_result (s : Game) (h : Reachable s) :
    (s.gameOver = true ↔ ∃ r, checkWinner s.board = some r) ∧
      (s.gameOver = false ↔ checkWinner s.board = none) := by
  rw [over_of_reachable s h]
  cases checkWinner s.board with
  | none => simp
  | some r => simp

/-- An instance of C18: the state after X has won the top row (clicks on the
cells 0, 3, 1, 4, 2). -/
theorem gameOver_iff_result_witness :
    ((playMoves initial [0, 3, 1, 4, 2]).gameOver = true ↔
        ∃ r, checkWinner (playMoves initial [0, 3, 1, 4, 2]).board = some r) ∧
      ((playMoves initial [0, 3, 1, 4, 2]).gameOver = false ↔
        checkWinner (playMoves initial [0, 3, 1, 4, 2]).board = none) :=
  gameOver_iff_result (playMoves initial [0, 3, 1, 4, 2])
    (Reachable.move _ 2 (Reachable.move _ 4 (Reachable.move _ 1
      (Reachable.move _ 3 (Reachable.move _ 0 Reachable.init)))))

/-! ## Counting marks -/

theorem marked_set_same (board : Board) (i : Fin 9) (m : Mark) :
    marked (board.set i (some m)) m = insert i (marked board m) := by
  ext j
  simp only [marked, Finset.mem_filter, Finset.mem_univ, true_and, Finset.mem_insert,
    Board.get_set]
  by_cases hj : j = i
  · simp [hj]
  · simp [hj]

theorem marked_set_other (board : Board) (i : Fin 9) (m n : Mark) (hn : n ≠ m)
    (h : board i = none) : marked (board.set i (some m)) n = marked board n := by
  ext j
  simp only [marked, Finset.mem_filter, Finset.mem_univ, true_and, Board.get_set]
  by_cases hj : j = i
  · subst hj
    simp only [if_true, h, reduceCtorEq, iff_false]
    exact fun e => hn (Option.some.inj e).symm
  · simp [hj]

theorem countMark_set_same (board : Board) (i : Fin 9) (m : Mark) (h : board i = none) :
    countMark (board.set i (some m)) m = countMark board m + 1 := by
  unfold countMark
  rw [marked_set_same, Finset.card_insert_of_not_mem]
  simp [marked, h]

theorem countMark_set_other (board : Board) (i : Fin 9) (m n : Mark) (hn : n ≠ m)
    (h : board i = none) : countMark (board.set i (some m)) n = countMark board n := by
  unfold countMark
  rw [marked_set_other board i m n hn h]

theorem countMark_emptyBoard (m : Mark) : countMark emptyBoard m = 0 := by
  unfold countMark
  rw [Finset.card_eq_zero]
  ext j
  simp [marked, emptyBoard_get]

/-- The marks of the two players fit on the nine cells. -/
theorem countMark_add_le (board : Board) :
    countMark board Mark.X + countMark board Mark.O ≤ 9 := by
  unfold countMark
  have hd : Disjoint (marked board Mark.X) (marked board Mark.O) := by
    rw [Finset.disjoint_left]
    intro j hx ho
    simp only [marked, Finset.mem_filter, Finset.mem_univ, true_and] at hx ho
    rw [hx] at ho
    cases ho
  rw [← Finset.card_union_of_disjoint hd]
  exact le_trans (Finset.card_le_univ _) (by simp)

/-- A board with fewer than nine marks has an empty cell. -/
theorem hasEmpty_of_count_lt (board : Board)
    (h : countMark board Mark.X + countMark board Mark.O < 9) : HasEmpty board := by
  by_contra hne
  have hcover : (Finset.univ : Finset (Fin 9)) ⊆ marked board Mark.X ∪ marked board Mark.O := by
    intro j _
    simp only [marked, Finset.mem_union, Finset.mem_filter, Finset.mem_univ, true_and]
    cases hj : board j with
    | none => exact absurd ⟨j, hj⟩ hne
    | some m => cases m <;> simp
  have h9 := Finset.card_le_card hcover
  have hu := Finset.card_union_le (marked board Mark.X) (marked board Mark.O)
  simp only [Finset.card_univ, Fintype.card_fin] at h9
  unfold countMark at h
  omega

theorem lineCells_subset (board : Board) (k : Nat) (m : Mark) (h : CompleteAt board k m) :
    lineCells k ⊆ marked board m := by
  obtain ⟨p, hp, h1, h2, h3⟩ := h
  obtain ⟨a, b, c⟩ := p
  unfold lineCells
  rw [hp]
  intro j hj
  simp only [Finset.mem_insert, Finset.mem_singleton] at hj
  simp only [marked, Finset.mem_filter, Finset.mem_univ, true_and]
  rcases hj with rfl | rfl | rfl
  · exact h1
  · exact h2
  · exact h3

theorem card_lineCells (k : Nat) (h : k < 8) : (lineCells k).card = 3 := by
  revert k
  decide

/-- A player who holds a line has at least three marks on the board. -/
theorem three_le_of_wins (board : Board) (m : Mark) (h : Wins board m) :
    3 ≤ countMark board m := by
  obtain ⟨k, hk, hc⟩ := h
  have := Finset.card_le_card (lineCells_subset board k m hc)
  rw [card_lineCells k hk] at this
  exact this

/-! ## Whose turn it is -/

/-- The balance of the marks: X has one mark more than O when X made the last
move (it is the turn of O, or the game ended on the move of X), and as many
otherwise. -/
theorem balance_makeMove (s : Game) (i : Fin 9) (hs : Synced s)
    (hb : countMark s.board Mark.X =
      countMark s.board Mark.O +
        (if decide (s.currentPlayer = Mark.X) = s.gameOver then 1 else 0)) :
    countMark (makeMove s i).board Mark.X =
      countMark (makeMove s i).board Mark.O +
        (if decide ((makeMove s i).currentPlayer = Mark.X) = (makeMove s i).gameOver
          then 1 else 0) := by
  by_cases ha : Accepted s i
  · obtain ⟨h1, h2, h3, -, -, -⟩ := makeMove_accepted s i ha
    obtain ⟨hg, hbi⟩ := (accepted_iff_of_synced s i hs).mp ha
    rw [h1, h2, h3]
    rw [hg] at hb
    cases hp : s.currentPlayer with
    | X =>
      rw [hp] at hb
      simp only [decide_True, Bool.true_eq_false, if_false, Nat.add_zero] at hb
      rw [countMark_set_same _ _ _ hbi, countMark_set_other _ _ _ _ (by decide) hbi, hb]
      cases (checkWinner (s.board.set i (some Mark.X))).isSome <;> simp [Mark.other]
    | O =>
      rw [hp] at hb
      simp only [reduceCtorEq, decide_False, if_true] at hb
      rw [countMark_set_same _ _ _ hbi, countMark_set_other _ _ _ _ (by decide) hbi, hb]
      cases (checkWinner (s.board.set i (some Mark.O))).isSome <;> simp [Mark.other]
  · rw [makeMove_of_not_accepted s i ha]
    exact hb

theorem balance_of_reachable (s : Game) (h : Reachable s) :
    countMark s.board Mark.X =
      countMark s.board Mark.O +
        (if decide (s.currentPlayer = Mark.X) = s.gameOver then 1 else 0) := by
  induction h with
  | init =>
    show countMark emptyBoard Mark.X = countMark emptyBoard Mark.O + _
    rw [countMark_emptyBoard, countMark_emptyBoard]
    rfl
  | move s i hr ih => exact balance_makeMove s i (synced_of_reachable s hr) ih
  | ai s t hr ht ih =>
    rcases makeAIMove_cases s with h1 | ⟨i, h1⟩
    · rw [h1] at ht
      cases ht
      exact ih
    · rw [h1] at ht
      cases ht
      exact balance_makeMove s i (synced_of_reachable s hr) ih
  | reset s _ _ =>
    show countMark emptyBoard Mark.X = countMark emptyBoard Mark.O + _
    rw [countMark_emptyBoard, countMark_emptyBoard]
    rfl
  | mode s v _ _ =>
    show countMark emptyBoard Mark.X = countMark emptyBoard Mark.O + _
    rw [countMark_emptyBoard, countMark_emptyBoard]
    rfl

/-- C13: in every state reachable from the constructor's state through
`makeMove`, `makeAIMove` and `resetGame` (and `setGameMode`), the board holds
at least as many marks X as marks O, and at most one more. -/
theorem marks_balanced (s : Game) (h : Reachable s) :
    countMark s.board Mark.O ≤ countMark s.board Mark.X ∧
      countMark s.board Mark.X ≤ countMark s.board Mark.O + 1 := by
  have hb := balance_of_reachable s h
  split_ifs at hb <;> omega

/-- An instance of C13: the state after the clicks on the cells 0, 3 and 1. -/
theorem marks_balanced_witness :
    countMark (playMoves initial [0, 3, 1]).board Mark.O ≤
        countMark (playMoves initial [0, 3, 1]).board Mark.X ∧
      countMark (playMoves initial [0, 3, 1]).board Mark.X ≤
        countMark (playMoves initial [0, 3, 1]).board Mark.O + 1 :=
  marks_balanced (playMoves initial [0, 3, 1])
    (Reachable.move _ 1 (Reachable.move _ 3 (Reachable.move _ 0 Reachable.init)))

/-! ## Games of legal moves -/

theorem reachable_of_played (n : Nat) (s : Game) (h : Played n s) : Reachable s := by
  induction h with
  | start => exact Reachable.init
  | step n s i _ _ ih => exact Reachable.move s i ih

theorem played_moves (n : Nat) (s : Game) (moves : List (Fin 9)) (h : Played n s)
    (ha : allAccepted s moves = true) : Played (n + moves.length) (playMoves s moves) := by
  induction moves generalizing n s with
  | nil => exact h
  | cons i rest ih =>
    unfold allAccepted at ha
    rw [Bool.and_eq_true] at ha
    have := ih (n + 1) (makeMove s i) (Played.step n s i h (of_decide_eq_true ha.1)) ha.2
    rw [List.length_cons, ← Nat.add_assoc, Nat.add_right_comm]
    exact this

/-- After `n` legal moves the board holds `n` marks. -/
theorem played_total (n : Nat) (s : Game) (h : Played n s) :
    countMark s.board Mark.X + countMark s.board Mark.O = n := by
  induction h with
  | start =>
    show countMark emptyBoard Mark.X + countMark emptyBoard Mark.O = 0
    rw [countMark_emptyBoard, countMark_emptyBoard]
  | step n s i hp ha ih =>
    have hs := synced_of_reachable s (reachable_of_played n s hp)
    obtain ⟨-, hbi⟩ := (accepted_iff_of_synced s i hs).mp ha
    rw [(makeMove_accepted s i ha).1]
    cases hc : s.currentPlayer with
    | X =>
      rw [countMark_set_same _ _ _ hbi, countMark_set_other _ _ _ _ (by decide) hbi]
      omega
    | O =>
      rw [countMark_set_same _ _ _ hbi, countMark_set_other _ _ _ _ (by decide) hbi]
      omega

/-- After legal moves the two players never both hold a line: a move is only
accepted while nobody holds one, and it completes lines of the mover only. -/
theorem played_consistent (n : Nat) (s : Game) (h : Played n s) :
    ¬ (Wins s.board Mark.X ∧ Wins s.board Mark.O) := by
  cases h with
  | start =>
    show ¬ (Wins emptyBoard Mark.X ∧ Wins emptyBoard Mark.O)
    decide
  | step n s i hp ha =>
    have ho := over_of_reachable s (reachable_of_played n s hp)
    rw [ha.1] at ho
    have hw : checkWinner s.board = none := by
      cases hc : checkWinner s.board with
      | none => rfl
      | some r => rw [hc] at ho; cases ho
    obtain ⟨hx, hoo⟩ := (no_line_iff s.board).mp ((checkWinner_eq_none_iff s.board).mp hw).1
    rw [(makeMove_accepted s i ha).1]
    rintro ⟨h1, h2⟩
    cases hc : s.currentPlayer with
    | X =>
      rw [hc] at h2
      exact hoo (wins_of_wins_set s.board i Mark.X Mark.O (by decide) h2)
    | O =>
      rw [hc] at h1
      exact hx (wins_of_wins_set s.board i Mark.O Mark.X (by decide) h1)

/-- C14: after fewer than 5 accepted moves made by `makeMove` from the
constructor's state, `checkWinner` returns `null` on the board. -/
theorem no_result_before_move_5 (n : Nat) (s : Game) (h : Played n s) (hn : n < 5) :
    checkWinner s.board = none := by
  have ht := played_total n s h
  have hb := balance_of_reachable s (reachable_of_played n s h)
  rw [checkWinner_eq_none_iff, no_line_iff]
  refine ⟨⟨fun hx => ?_, fun ho => ?_⟩, hasEmpty_of_count_lt s.board (by omega)⟩
  · have := three_le_of_wins s.board Mark.X hx
    split_ifs at hb <;> omega
  · have := three_le_of_wins s.board Mark.O ho
    split_ifs at hb <;> omega

/-- An instance of C14: the four clicks on the cells 0, 3, 1 and 4. -/
theorem no_result_before_move_5_witness :
    checkWinner (playMoves initial [0, 3, 1, 4]).board = none :=
  no_result_before_move_5 4 (playMoves initial [0, 3, 1, 4])
    (played_moves 0 initial [0, 3, 1, 4] Played.start (by decide)) (by decide)

/-- C15: on every board reached by legal alternating moves through
`makeMove`, X and O do not both hold a complete line, so that the winner
`checkWinner` reports is the mark of every complete line, whichever is
scanned first. -/
theorem one_winner (n : Nat) (s : Game) (h : Played n s) :
    ¬ (Wins s.board Mark.X ∧ Wins s.board Mark.O) ∧
      ∀ k m r, CompleteAt s.board k m → checkWinner s.board = some r →
        r.winner = Winner.ofMark m := by
  have hc := played_consistent n s h
  refine ⟨hc, ?_⟩
  intro k m r hk hr
  have hm : Wins s.board m := (wins_iff s.board m).mpr ⟨k, hk⟩
  rcases checkWinner_some s.board r hr with ⟨m2, hm2, hw2⟩ | ⟨-, hx, ho, -⟩
  · rw [hm2]
    cases m <;> cases m2
    · rfl
    · exact absurd ⟨hm, hw2⟩ hc
    · exact absurd ⟨hw2, hm⟩ hc
    · rfl
  · cases m
    · exact absurd hm hx
    · exact absurd hm ho

/-- An instance of C15: the state after X has won the top row (clicks on the
cells 0, 3, 1, 4, 2). -/
theorem one_winner_witness :
    ¬ (Wins (playMoves initial [0, 3, 1, 4, 2]).board Mark.X ∧
        Wins (playMoves initial [0, 3, 1, 4, 2]).board Mark.O) ∧
      ∀ k m r, CompleteAt (playMoves initial [0, 3, 1, 4, 2]).board k m →
        checkWinner (playMoves initial [0, 3, 1, 4, 2]).board = some r →
        r.winner = Winner.ofMark m :=
  one_winner 5 (playMoves initial [0, 3, 1, 4, 2])
    (played_moves 0 initial [0, 3, 1, 4, 2] Played.start (by decide))

/-- C19 (as stated, refuted): the nine legal moves 0, 3, 1, 4, 5, 6, 8, 7, 2
end on the board `X X X / O O X / O O X`, where the last move of X completes
the top row (line 0) and the right column (line 5) at once. -/
theorem two_lines_at_once :
    Played 9 (playMoves initial [0, 3, 1, 4, 5, 6, 8, 7, 2]) ∧
      LineComplete (playMoves initial [0, 3, 1, 4, 5, 6, 8, 7, 2]).board 0 ∧
      LineComplete (playMoves initial [0, 3, 1, 4, 5, 6, 8, 7, 2]).board 5 :=
  ⟨played_moves 0 initial [0, 3, 1, 4, 5, 6, 8, 7, 2] Played.start (by decide),
    by decide, by decide⟩

theorem card_three_lines :
    ∀ l, l < 8 → ∀ k, k < l → ∀ j, j < k →
      6 ≤ (lineCells j ∪ lineCells k ∪ lineCells l).card := by
  decide

/-- C19 (amended): on every board reached by legal alternating moves through
`makeMove`, at most two of the eight lines are complete. -/
theorem at_most_two_lines (n : Nat) (s : Game) (h : Played n s) (j k l : Nat)
    (hjk : j < k) (hkl : k < l) :
    ¬ (LineComplete s.board j ∧ LineComplete s.board k ∧ LineComplete s.board l) := by
  rintro ⟨⟨mj, hj⟩, ⟨mk, hk⟩, ⟨ml, hl⟩⟩
  have hc := played_consistent n s h
  have hb := balance_of_reachable s (reachable_of_played n s h)
  have h9 := countMark_add_le s.board
  have hl8 : l < 8 := by
    obtain ⟨p, hp, -⟩ := hl
    have := (List.get?_eq_some.mp hp).1
    simpa [length_winPatterns] using this
  have same : ∀ m, Wins s.board m → ∀ k2 m2, CompleteAt s.board k2 m2 → m2 = m := by
    intro m hm k2 m2 h2
    have hm2 : Wins s.board m2 := (wins_iff s.board m2).mpr ⟨k2, h2⟩
    cases m <;> cases m2
    · rfl
    · exact absurd ⟨hm, hm2⟩ hc
    · exact absurd ⟨hm2, hm⟩ hc
    · rfl
  have hwin : Wins s.board mj := (wins_iff s.board mj).mpr ⟨j, hj⟩
  have ek := same mj hwin k mk hk
  have el := same mj hwin l ml hl
  rw [ek] at hk
  rw [el] at hl
  have hsub : lineCells j ∪ lineCells k ∪ lineCells l ⊆ marked s.board mj :=
    Finset.union_subset
      (Finset.union_subset (lineCells_subset _ j _ hj) (lineCells_subset _ k _ hk))
      (lineCells_subset _ l _ hl)
  have h6 := le_trans (card_three_lines l hl8 k hkl j hjk) (Finset.card_le_card hsub)
  change 6 ≤ countMark s.board mj at h6
  cases mj <;> split_ifs at hb <;> omega

/-- An instance of C19 (amended): the board of the nine moves 0, 3, 1, 4, 5,
6, 8, 7, 2 and the lines 0, 1 and 5. -/
theorem at_most_two_lines_witness :
    ¬ (LineComplete (playMoves initial [0, 3, 1, 4, 5, 6, 8, 7, 2]).board 0 ∧
        LineComplete (playMoves initial [0, 3, 1, 4, 5, 6, 8, 7, 2]).board 1 ∧
        LineComplete (playMoves initial [0, 3, 1, 4, 5, 6, 8, 7, 2]).board 5) :=
  at_most_two_lines 9 (playMoves initial [0, 3, 1, 4, 5, 6, 8, 7, 2])
    (played_moves 0 initial [0, 3, 1, 4, 5, 6, 8, 7, 2] Played.start (by decide)) 0 1 5
    (by decide) (by decide)

/-! ## The moves of the search on two boards -/

/-- When the bounded search answers `true`, the value of the position is at
most `t`. -/
theorem atMost_sound (d : Nat) (t : Int) (board : Board) (oToMove : Bool)
    (h : atMost d t board.cells oToMove = true) : gameValueAt d board oToMove ≤ t := by
  induction d generalizing board oToMove with
  | zero => simp [atMost] at h
  | succ d ih =>
    unfold atMost at h
    unfold gameValueAt
    by_cases ho : Wins board Mark.O
    · rw [if_pos ((wonBy_iff board Mark.O).mpr ho)] at h
      rw [if_pos ho]
      exact of_decide_eq_true h
    · rw [if_neg (fun e => ho ((wonBy_iff board Mark.O).mp e))] at h
      rw [if_neg ho]
      by_cases hx : Wins board Mark.X
      · rw [if_pos ((wonBy_iff board Mark.X).mpr hx)] at h
        rw [if_pos hx]
        exact of_decide_eq_true h
      · rw [if_neg (fun e => hx ((wonBy_iff board Mark.X).mp e))] at h
        rw [if_neg hx]
        cases oToMove with
        | true =>
          simp only [if_true] at h ⊢
          by_cases he : emptyCells board = []
          · rw [if_pos he]
            rw [(successors_eq_nil_iff board Mark.O).mpr he] at h
            exact of_decide_eq_true h
          · rw [if_neg he]
            have hall : (successors Mark.O board.cells).all (fun c => atMost d t c false) = true := by
              revert h
              cases hsu : successors Mark.O board.cells with
              | nil => exact absurd ((successors_eq_nil_iff board Mark.O).mp hsu) he
              | cons y ys => exact fun h => h
            apply listMax_le _ _ (by simpa using he)
            intro v hv
            obtain ⟨i, hi, rfl⟩ := List.mem_map.mp hv
            have hib := (mem_emptyCells board i).mp hi
            exact ih _ false (List.all_eq_true.mp hall _
              ((mem_successors board Mark.O _).mpr ⟨i, hib, rfl⟩))
        | false =>
          simp only [Bool.false_eq_true, if_false] at h ⊢
          by_cases he : emptyCells board = []
          · rw [if_pos he]
            rw [(successors_eq_nil_iff board Mark.X).mpr he] at h
            exact of_decide_eq_true h
          · rw [if_neg he]
            have hany : (successors Mark.X board.cells).any (fun c => atMost d t c true) = true := by
              revert h
              cases hsu : successors Mark.X board.cells with
              | nil => exact absurd ((successors_eq_nil_iff board Mark.X).mp hsu) he
              | cons y ys => exact fun h => h
            obtain ⟨c, hc, hcv⟩ := List.any_eq_true.mp hany
            obtain ⟨i, hi, rfl⟩ := (mem_successors board Mark.X c).mp hc
            exact le_trans
              (listMin_le _ _ (List.mem_map.mpr ⟨i, (mem_emptyCells board i).mpr hi, rfl⟩))
              (ih _ true hcv)

theorem gameValue_ten (board : Board) (oToMove : Bool) :
    gameValue board oToMove = gameValueAt 10 board oToMove := by
  unfold gameValue
  have := length_emptyCells_le board
  exact gameValueAt_depth _ _ _ _ (by omega) (by omega)

theorem cellScore_le (board : Board) (i : Fin 9) (t : Int)
    (h : atMost 10 t (board.set i (some Mark.O)).cells false = true) : cellScore board i ≤ t := by
  unfold cellScore
  rw [gameValue_ten]
  exact atMost_sound 10 t _ false h

theorem le_cellScore (board : Board) (i : Fin 9) (t : Int)
    (h : atLeast 10 t (board.set i (some Mark.O)).cells false = true) : t ≤ cellScore board i := by
  unfold cellScore
  rw [gameValue_ten]
  exact atLeast_sound 10 t _ false h

set_option maxRecDepth 1000000 in
theorem atMost_openings :
    ∀ i : Fin 9, atMost 10 0 (emptyBoard.set i (some Mark.O)).cells false = true := by
  decide!

set_option maxRecDepth 1000000 in
theorem atLeast_opening :
    atLeast 10 0 (emptyBoard.set 0 (some Mark.O)).cells false = true := by
  decide!

set_option maxRecDepth 1000000 in
theorem atMost_blockBoard :
    ∀ i : Fin 9, blockBoard i = none →
      atMost 10 (-1) (blockBoard.set i (some Mark.O)).cells false = true := by
  decide!

set_option maxRecDepth 1000000 in
theorem atLeast_blockBoard :
    atLeast 10 (-1) (blockBoard.set 2 (some Mark.O)).cells false = true := by
  decide!

/-- On the empty board the loop of `findBestMove` ends on cell 0. -/
theorem findBestMove_emptyBoard (s : Game) (hb : s.board = emptyBoard) :
    findBestMove s = some (0, s) := by
  have hl : ∀ k, ¬ LineComplete s.board k := by
    rw [hb]
    exact (no_line_iff emptyBoard).mpr ⟨by decide, by decide⟩
  have he : ∀ j, s.board j = none := fun j => by rw [hb]; exact emptyBoard_get j
  obtain ⟨i, -, hbest, -, hfirst⟩ :=
    bestOf_spec s.board (fun i => searchValue minimaxFuel (s.board.set i (some Mark.O)) false)
      (cellScore s.board) (fun i _ => searchValue_cell s.board i hl) ⟨0, he 0⟩
  rw [findBestMove_eq, hbest]
  by_cases hi : i = 0
  · rw [hi]
    simp
  · have hlt := hfirst 0 (he 0) (Fin.pos_of_ne_zero hi)
    have h1 : cellScore s.board i ≤ 0 := by
      rw [hb]
      exact cellScore_le emptyBoard i 0 (atMost_openings i)
    have h2 : 0 ≤ cellScore s.board 0 := by
      rw [hb]
      exact le_cellScore emptyBoard 0 0 atLeast_opening
    omega

theorem blockBoard_empty_cells : ∀ i : Fin 9, blockBoard i = none → i = 2 ∨ 2 < i := by
  decide

/-- C16: on the board `X X - / O - - / - - -` (with O to move or not)
`findBestMove` returns index 2, the cell that blocks the top row of X. -/
theorem findBestMove_blocks (s : Game) (hb : s.board = blockBoard) :
    findBestMove s = some (2, s) := by
  have hl : ∀ k, ¬ LineComplete s.board k := by
    rw [hb]
    exact (no_line_iff blockBoard).mpr ⟨by decide, by decide⟩
  have h2e : s.board 2 = none := by
    rw [hb]
    decide
  obtain ⟨i, hbi, hbest, -, hfirst⟩ :=
    bestOf_spec s.board (fun i => searchValue minimaxFuel (s.board.set i (some Mark.O)) false)
      (cellScore s.board) (fun i _ => searchValue_cell s.board i hl) ⟨2, h2e⟩
  rw [findBestMove_eq, hbest]
  have hbi2 : blockBoard i = none := by
    rw [← hb]
    exact hbi
  rcases blockBoard_empty_cells i hbi2 with hi | hi
  · rw [hi]
    simp
  · have hlt := hfirst 2 h2e hi
    have h1 : cellScore s.board i ≤ -1 := by
      rw [hb]
      exact cellScore_le blockBoard i (-1) (atMost_blockBoard i hbi2)
    have h2 : -1 ≤ cellScore s.board 2 := by
      rw [hb]
      exact le_cellScore blockBoard 2 (-1) atLeast_blockBoard
    omega

/-- An instance of C16: the state with that board and O to move. -/
theorem findBestMove_blocks_witness :
    findBestMove { initial with board := blockBoard, currentPlayer := Mark.O } =
      some (2, { initial with board := blockBoard, currentPlayer := Mark.O }) :=
  findBestMove_blocks { initial with board := blockBoard, currentPlayer := Mark.O } rfl

/-- C17: on the empty board `findBestMove` returns index 0, and no opening
cell of O scores higher than cell 0. -/
theorem findBestMove_opening (s : Game) (hb : s.board = emptyBoard) :
    findBestMove s = some (0, s) ∧
      ∀ j, cellScore s.board j ≤ cellScore s.board 0 := by
  refine ⟨findBestMove_emptyBoard s hb, fun j => ?_⟩
  have h1 : cellScore s.board j ≤ 0 := by
    rw [hb]
    exact cellScore_le emptyBoard j 0 (atMost_openings j)
  have h2 : 0 ≤ cellScore s.board 0 := by
    rw [hb]
    exact le_cellScore emptyBoard 0 0 atLeast_opening
  omega

/-- An instance of C17: the constructor's state. -/
theorem findBestMove_opening_witness :
    findBestMove initial = some (0, initial) ∧
      ∀ j, cellScore initial.board j ≤ cellScore initial.board 0 :=
  findBestMove_opening initial rfl

theorem cellAt_zero : cellAt 0 = some 0 := by
  decide

/-- When `findBestMove` returns 0, `makeAIMove` is the call of `makeMove` on
cell 0. -/
theorem makeAIMove_of_zero (s : Game) (h : findBestMove s = some (0, s)) :
    makeAIMove s = some (makeMove s 0) := by
  unfold makeAIMove
  rw [h]
  simp only
  rw [if_pos (by decide), cellAt_zero]

/-- On a freshly reset state `makeAIMove` is the call of `makeMove` on cell 0. -/
theorem makeAIMove_fresh (s : Game) :
    makeAIMove (resetGame s) = some (makeMove (resetGame s) 0) :=
  makeAIMove_of_zero (resetGame s) (findBestMove_emptyBoard (resetGame s) rfl)

/-- The move on cell 0 of a freshly reset state: X is written there, the turn
goes to O and the game goes on. -/
theorem makeMove_fresh (s : Game) :
    (makeMove (resetGame s) 0).board = emptyBoard.set 0 (some Mark.X) ∧
      (makeMove (resetGame s) 0).currentPlayer = Mark.O ∧
      (makeMove (resetGame s) 0).gameOver = false := by
  have ha : Accepted (resetGame s) 0 := ⟨rfl, rfl, rfl⟩
  obtain ⟨h1, h2, h3, -, -, -⟩ := makeMove_accepted (resetGame s) 0 ha
  have hb : (resetGame s).board.set 0 (some (resetGame s).currentPlayer) =
      emptyBoard.set 0 (some Mark.X) := rfl
  have hw : checkWinner (emptyBoard.set 0 (some Mark.X)) = none := by
    decide
  rw [hb] at h1 h2 h3
  rw [hw] at h2 h3
  exact ⟨h1, h3, h2⟩

/-- C20 (as stated, refuted): in vs-AI mode the click of X on cell 4
schedules `makeAIMove`; `resetGame` leaves that call scheduled, and when it
runs on the reset state it puts X on cell 0 and hands the turn to O: the board
is not empty and `currentPlayer` is not X. -/
theorem stale_ai_move_applied :
    (makeMove (setGameMode initial true) 4).pendingAI = 1 ∧
      (resetGame (makeMove (setGameMode initial true) 4)).pendingAI = 1 ∧
      ∃ t, makeAIMove (resetGame (makeMove (setGameMode initial true) 4)) = some t ∧
        t.board 0 = some Mark.X ∧ t.currentPlayer = Mark.O := by
  have hp : (makeMove (setGameMode initial true) 4).pendingAI = 1 := by
    decide
  refine ⟨hp, hp, _, makeAIMove_fresh _, ?_, (makeMove_fresh _).2.1⟩
  rw [(makeMove_fresh _).1]
  decide

/-- C20 (amended): `makeAIMove` run on a freshly reset state is not
discarded: it puts X, the player of the reset state, on cell 0, leaves the
other cells empty, makes O the current player and leaves `gameOver` false. -/
theorem stale_ai_move (s : Game) :
    ∃ t, makeAIMove (resetGame s) = some t ∧ t.board = emptyBoard.set 0 (some Mark.X) ∧
      t.currentPlayer = Mark.O ∧ t.gameOver = false :=
  ⟨_, makeAIMove_fresh s, makeMove_fresh s⟩

end NeonTicTacToe
